import Mathlib

/-!
Verification development for the autokernel configuration resolution core
(`autokernel.py`).  The Python code is shallowly embedded: the assignment
engine (`apply_autokernel_config` with its inner `set_symbol`,
`assert_symbol` and `visit`), the module graph builder (`ModuleCreator`),
the kernel-config writer (`KernelConfigWriter.write_module`,
`ModuleCreator._create_reverse_deps`) and the hardware matcher
(`detect_modules`).  The external kconfig evaluator (`kconfiglib`) is
modelled as an abstract value oracle.  Unbounded Python recursion is
modelled with an explicit fuel parameter; exhausting the fuel yields a
distinguished non-result, so a `some`/`.ok` outcome corresponds exactly to
a terminating Python run.
-/

namespace Autokernel

/-- Association-list lookup keyed by decidable equality (models Python
`dict` lookup: `d[k]` / `k in d`). -/
def lookupA {κ β : Type} [DecidableEq κ] : List (κ × β) → κ → Option β
  | [], _ => none
  | (k1, v) :: rest, k => if k1 = k then some v else lookupA rest k

/-- Association-list insertion with Python `dict` semantics: an existing
key keeps its position and gets the new value, a new key is appended. -/
def insertA {κ β : Type} [DecidableEq κ] : List (κ × β) → κ → β → List (κ × β)
  | [], k, v => [(k, v)]
  | (k1, v1) :: rest, k, v =>
    if k1 = k then (k, v) :: rest else (k1, v1) :: insertA rest k v

theorem lookupA_insertA_self {κ β : Type} [DecidableEq κ] (l : List (κ × β)) (k : κ) (v : β) :
    lookupA (insertA l k v) k = some v := by
  induction l with
  | nil => simp [insertA, lookupA]
  | cons p rest ih =>
    obtain ⟨k1, v1⟩ := p
    by_cases h : k1 = k
    · simp [insertA, h, lookupA]
    · simp [insertA, h, lookupA, ih]

theorem lookupA_insertA_ne {κ β : Type} [DecidableEq κ] (l : List (κ × β)) (k x : κ) (v : β)
    (hne : k ≠ x) : lookupA (insertA l k v) x = lookupA l x := by
  induction l with
  | nil => simp [insertA, lookupA, hne]
  | cons p rest ih =>
    obtain ⟨k1, v1⟩ := p
    by_cases h : k1 = k
    · subst h
      simp [insertA, lookupA, hne]
    · simp only [insertA, if_neg h]
      by_cases h2 : k1 = x
      · simp [lookupA, h2]
      · simp [lookupA, h2, ih]

/-! ## Data model of the assignment engine -/

/-- Phases of the instrumentation trace of one engine run. `enter` marks a
module being visited for the first time; the remaining phases record the
body work done for a module. -/
inductive Phase where
  | enter : Phase
  | mergeF : String → Phase
  | assignSet : String → String → Phase
  | assignSkip : String → String → Phase
  | assertOk : String → String → Phase
deriving DecidableEq

/-- One trace event: the pool index of the module it belongs to plus the
phase. -/
structure Ev where
  mid : Nat
  ph : Phase
deriving DecidableEq

/-- The external symbol oracle (kconfiglib in the source): current string
value of a symbol, stateful value setting (the returned `Bool` is
kconfiglib's accept/reject result), and merging of an external config
file (`kconfig.load_config`). -/
structure Oracle (σ : Type) where
  str_value : σ → String → String
  set_value : σ → String → String → Bool × σ
  merge : σ → String → σ

/-- Mutable state of one `apply_autokernel_config` run: the oracle state,
the `changes` record (symbol, old value, new value; Python dict in
insertion order), the emitted non-fatal warnings, the `visited` name set
and the instrumentation trace. -/
structure EngSt (σ : Type) where
  kc : σ
  changes : List (String × String × String)
  warnings : List String
  visited : List String
  trace : List Ev

/-- Python `value_to_str`: tri-state values are shown in brackets, other
values quoted. -/
def value_to_str (v : String) : String :=
  if v = "n" ∨ v = "m" ∨ v = "y" then "[" ++ v ++ "]" else "\x27" ++ v ++ "\x27"

def conflictMsg (symbol prev now : String) : String :=
  "Conflicting change for symbol " ++ symbol ++ " (previously set to " ++
    value_to_str prev ++ ", now " ++ value_to_str now ++ ")"

def invalidMsg (value symbol : String) : String :=
  "Invalid value " ++ value_to_str value ++ " for symbol " ++ symbol

def warnMsg (symbol readback value : String) : String :=
  "Symbol assignment failed: " ++ symbol ++ " from " ++ value_to_str readback ++
    " -> " ++ value_to_str value

def assertMsg (symbol value actual : String) : String :=
  "Assertion failed: " ++ symbol ++ " should be " ++ value_to_str value ++
    " but is " ++ value_to_str actual

/-- Translation of the inner `set_symbol` of `apply_autokernel_config`.
A `.error` corresponds to `die(...)` (fatal abort of the run). -/
def set_symbol {σ : Type} (O : Oracle σ) (st : EngSt σ) (symbol value : String) :
    Except String (EngSt σ) :=
  match lookupA st.changes symbol with
  | some prev =>
    if prev.2 ≠ value then .error (conflictMsg symbol prev.2 value)
    else .ok st
  | none =>
    let original := O.str_value st.kc symbol
    let r := O.set_value st.kc symbol value
    if r.1 = false then .error (invalidMsg value symbol)
    else
      let readback := O.str_value r.2 symbol
      .ok { st with
            kc := r.2,
            warnings :=
              if readback ≠ value then st.warnings ++ [warnMsg symbol readback value]
              else st.warnings,
            changes :=
              if original ≠ readback then st.changes ++ [(symbol, original, readback)]
              else st.changes }

/-- Translation of the inner `assert_symbol` of `apply_autokernel_config`. -/
def assert_symbol {σ : Type} (O : Oracle σ) (st : EngSt σ) (symbol value : String) :
    Except String Unit :=
  if O.str_value st.kc symbol ≠ value then
    .error (assertMsg symbol value (O.str_value st.kc symbol))
  else .ok ()

/-! ## The module graph walked by the engine -/

/-- A module node as walked by `apply_autokernel_config`: dependencies are
references to other modules, modelled as indices into a pool of modules
(object identity = pool index; two distinct pool entries with the same
name model two distinct Python objects with equal names). -/
structure ModuleV where
  name : String
  deps : List Nat
  merge_kconf_files : List String
  assignments : List (String × String)
  assertions : List (String × String)
deriving DecidableEq

/-- Run-level failure: a fatal `die` with its message, or fuel exhaustion
(the Python original would still be recursing). -/
inductive RunErr where
  | fatal : String → RunErr
  | noFuel : RunErr
deriving DecidableEq

/-- Merge loop of `visit`: `for filename in module.merge_kconf_files:
kconfig.load_config(filename)`. -/
def applyMerges {σ : Type} (O : Oracle σ) (mid : Nat) (st : EngSt σ) :
    List String → EngSt σ
  | [] => st
  | f :: rest =>
    applyMerges O mid
      { st with kc := O.merge st.kc f, trace := st.trace ++ [⟨mid, .mergeF f⟩] } rest

/-- Assignment loop of `visit`: `for symbol, value in module.assignments:
set_symbol(symbol, value)`. -/
def applyAssignsE {σ : Type} (O : Oracle σ) (mid : Nat) (st : EngSt σ) :
    List (String × String) → Except String (EngSt σ)
  | [] => .ok st
  | (s, v) :: rest =>
    let ph : Phase :=
      match lookupA st.changes s with
      | some _ => .assignSkip s v
      | none => .assignSet s v
    match set_symbol O st s v with
    | .error e => .error e
    | .ok st1 =>
      applyAssignsE O mid { st1 with trace := st1.trace ++ [⟨mid, ph⟩] } rest

/-- Assertion loop of `visit`: `for symbol, value in module.assertions:
assert_symbol(symbol, value)`. -/
def applyAssertsE {σ : Type} (O : Oracle σ) (mid : Nat) (st : EngSt σ) :
    List (String × String) → Except String (EngSt σ)
  | [] => .ok st
  | (s, v) :: rest =>
    match assert_symbol O st s v with
    | .error e => .error e
    | .ok _ =>
      applyAssertsE O mid { st with trace := st.trace ++ [⟨mid, .assertOk s v⟩] } rest

/-- The recursive `visit` of `apply_autokernel_config`, written as a
fuel-indexed walk over a worklist of module references.  A module whose
name is already in `visited` is skipped; otherwise it is marked visited,
its dependencies are fully processed first, then its merge files,
assignments and assertions are applied in that order.  Sufficient fuel
reproduces the Python recursion exactly; insufficient fuel yields
`noFuel`. -/
def visitD {σ : Type} (O : Oracle σ) (pool : List ModuleV) :
    Nat → EngSt σ → List Nat → Except RunErr (EngSt σ)
  | 0, _, _ => .error .noFuel
  | Nat.succ _, st, [] => .ok st
  | Nat.succ fuel, st, i :: rest =>
    match pool[i]? with
    | none => .error (.fatal "invalid module reference")
    | some m =>
      if st.visited.contains m.name then visitD O pool fuel st rest
      else
        let stm :=
          { st with visited := st.visited ++ [m.name], trace := st.trace ++ [⟨i, .enter⟩] }
        match visitD O pool fuel stm m.deps with
        | .error e => .error e
        | .ok st2 =>
          let st3 := applyMerges O i st2 m.merge_kconf_files
          match applyAssignsE O i st3 m.assignments with
          | .error msg => .error (.fatal msg)
          | .ok st4 =>
            match applyAssertsE O i st4 m.assertions with
            | .error msg => .error (.fatal msg)
            | .ok st5 => visitD O pool fuel st5 rest

/-- `apply_autokernel_config`: start from a fresh engine state and visit
the root module. -/
def runConfig {σ : Type} (O : Oracle σ) (pool : List ModuleV) (σ0 : σ)
    (fuel root : Nat) : Except RunErr (EngSt σ) :=
  visitD O pool fuel ⟨σ0, [], [], [], []⟩ [root]

/-! ## Concrete oracles for counterexamples and witnesses -/

/-- Concrete oracle state: a plain assignment of string values to symbol
names; unset symbols read as "n". -/
abbrev Cσ : Type := List (String × String)

def cRead (kc : Cσ) (s : String) : String := (lookupA kc s).getD "n"

/-- An oracle that accepts every set and stores the value verbatim. -/
def KO : Oracle Cσ :=
  ⟨cRead, fun kc s v => (true, insertA kc s v), fun kc _ => kc⟩

/-- An oracle whose `set_value` always reports rejection (returns false),
as kconfiglib does for an invalid value. -/
def KOrej : Oracle Cσ :=
  ⟨cRead, fun kc _ _ => (false, kc), fun kc _ => kc⟩

/-- An oracle that accepts a set but adjusts the stored value: a request
for "y" is stored as "m" (the read-back differs from the request). -/
def KOadj : Oracle Cσ :=
  ⟨cRead, fun kc s v => (true, insertA kc s (if v = "y" then "m" else v)), fun kc _ => kc⟩

def isOkE {ε α : Type} : Except ε α → Bool
  | .ok _ => true
  | .error _ => false

def changesOfE {σ : Type} : Except RunErr (EngSt σ) → List (String × String × String)
  | .ok st => st.changes
  | .error _ => []

def warningsOfE {σ : Type} : Except String (EngSt σ) → List String
  | .ok st => st.warnings
  | .error _ => []

def getOkE : Except RunErr (EngSt Cσ) → EngSt Cσ
  | .ok st => st
  | .error _ => ⟨[], [], [], [], []⟩

/-! ## Claim C1 -/

/-- Module graph for the C1 counterexample: the root depends on two
modules; module 1 assigns X:="n" (equal to X's current value, so no
change is recorded), module 2 then assigns X:="y". -/
def c1pool : List ModuleV :=
  [⟨"root", [1, 2], [], [], []⟩,
   ⟨"m1", [], [], [("X", "n")], []⟩,
   ⟨"m2", [], [], [("X", "y")], []⟩]

/-- Claim C1 as stated is false: module m1 assigns X to "n" and the later
module m2 assigns X to "y" — a different value — yet the run succeeds
with no conflict error, because `set_symbol` keys its conflict check on
the `changes` record, which only tracks assignments that actually changed
the symbol's value (m1's assignment left X at "n", so nothing was
recorded). -/
theorem c1_counterexample :
    isOkE (runConfig KO c1pool [] 10 0) = true ∧
    changesOfE (runConfig KO c1pool [] 10 0) = [("X", "n", "y")] ∧
    ("X", "n") ∈ (c1pool.get ⟨1, by decide⟩).assignments ∧
    ("X", "y") ∈ (c1pool.get ⟨2, by decide⟩).assignments ∧
    c1pool.get ⟨1, by decide⟩ ≠ c1pool.get ⟨2, by decide⟩ := by
  refine ⟨rfl, rfl, ?_, ?_, ?_⟩ <;> decide

/-- Claim C1, amended: the conflict check is keyed on the recorded change
for the symbol (present only when an earlier assignment actually changed
the symbol's value, and holding the read-back value).  If a recorded
change exists with a different value, the run fails fatally with a
conflict error naming the recorded value and the newly intended value; a
reassignment equal to the recorded value is skipped, leaving the state —
and in particular the single change record — untouched. -/
theorem c1_amended {σ : Type} (O : Oracle σ) (st : EngSt σ) (s v po pn : String)
    (h : lookupA st.changes s = some (po, pn)) :
    (pn ≠ v → set_symbol O st s v = .error (conflictMsg s pn v)) ∧
    set_symbol O st s pn = .ok st := by
  constructor
  · intro hne
    simp [set_symbol, h, hne]
  · simp [set_symbol, h]

def c1stW : EngSt Cσ := ⟨[("X", "y")], [("X", "n", "y")], [], [], []⟩

theorem c1_amended_witness :
    set_symbol KO c1stW "X" "z" = .error (conflictMsg "X" "y" "z") ∧
    set_symbol KO c1stW "X" "y" = .ok c1stW :=
  ⟨(c1_amended KO c1stW "X" "z" "n" "y" rfl).1 (by decide),
   (c1_amended KO c1stW "X" "y" "n" "y" rfl).2⟩

/-! ## Claim C2 -/

def c2pool : List ModuleV := [⟨"root", [], [], [("X", "y")], []⟩]

/-- Claim C2 as stated is false: when the oracle's `set_value` returns
false (which the claim itself names as a rejection signal), the run does
not continue with a warning — it aborts fatally with an invalid-value
error. -/
theorem c2_counterexample :
    runConfig KOrej c2pool [] 5 0 =
      .error (.fatal "Invalid value [y] for symbol X") := by
  rfl

/-- Claim C2, amended: the two signals are treated differently.  If
`set_value` returns false the engine aborts fatally with an invalid-value
error.  If `set_value` returns true but the value as read back differs
from the requested value, the engine emits a non-fatal warning and the
run continues. -/
theorem c2_amended {σ : Type} (O : Oracle σ) (st : EngSt σ) (s v : String)
    (h : lookupA st.changes s = none) :
    ((O.set_value st.kc s v).1 = false →
      set_symbol O st s v = .error (invalidMsg v s)) ∧
    ((O.set_value st.kc s v).1 = true →
      O.str_value (O.set_value st.kc s v).2 s ≠ v →
      isOkE (set_symbol O st s v) = true ∧
      warnMsg s (O.str_value (O.set_value st.kc s v).2 s) v ∈
        warningsOfE (set_symbol O st s v)) := by
  constructor
  · intro hb
    simp [set_symbol, h, hb]
  · intro hb hrb
    simp [set_symbol, h, hb, hrb, isOkE, warningsOfE]

def engInit : EngSt Cσ := ⟨[], [], [], [], []⟩

theorem c2_amended_witness :
    isOkE (set_symbol KOadj engInit "X" "y") = true ∧
    warnMsg "X" "m" "y" ∈ warningsOfE (set_symbol KOadj engInit "X" "y") :=
  (c2_amended KOadj engInit "X" "y" rfl).2 rfl (by decide)

/-! ## Claim C10 -/

theorem set_symbol_changes {σ : Type} (O : Oracle σ) (st : EngSt σ) (s v : String)
    (st1 : EngSt σ) (h : set_symbol O st s v = .ok st1) :
    ∀ c ∈ st1.changes, c ∈ st.changes ∨
      (c.1 = s ∧ c.2.1 ≠ c.2.2 ∧ c.2.2 = O.str_value st1.kc s ∧
        (O.str_value st1.kc s ≠ v → c.2.2 ≠ v)) := by
  intro c hc
  unfold set_symbol at h
  revert h
  cases hl : lookupA st.changes s with
  | some prev =>
    by_cases hne : prev.2 ≠ v
    · simp [hne]
    · intro h
      simp only [if_neg hne] at h
      cases h
      exact Or.inl hc
  | none =>
    by_cases hb : (O.set_value st.kc s v).1 = false
    · simp [hb]
    · intro h
      simp only [if_neg hb] at h
      cases h
      simp only at hc ⊢
      by_cases hch : O.str_value st.kc s ≠ O.str_value (O.set_value st.kc s v).2 s
      · rw [if_pos hch] at hc
        rcases List.mem_append.mp hc with hold | hnew
        · exact Or.inl hold
        · rcases List.mem_singleton.mp hnew with rfl
          exact Or.inr ⟨rfl, hch, rfl, fun hne2 => hne2⟩
      · rw [if_neg hch] at hc
        exact Or.inl hc

/-- Invariant: every recorded change has distinct old and new values. -/
def ChangesNe {σ : Type} (st : EngSt σ) : Prop :=
  ∀ c ∈ st.changes, c.2.1 ≠ c.2.2

theorem set_symbol_changesNe {σ : Type} {O : Oracle σ} {st : EngSt σ} {s v : String}
    {st1 : EngSt σ} (h : set_symbol O st s v = .ok st1) (hP : ChangesNe st) :
    ChangesNe st1 := by
  intro c hc
  rcases set_symbol_changes O st s v st1 h c hc with hold | hnew
  · exact hP c hold
  · exact hnew.2.1

theorem applyMerges_changes {σ : Type} (O : Oracle σ) (mid : Nat) (st : EngSt σ)
    (fs : List String) : (applyMerges O mid st fs).changes = st.changes := by
  induction fs generalizing st with
  | nil => rfl
  | cons f rest ih => simpa [applyMerges] using ih _

theorem applyAssertsE_changes {σ : Type} {O : Oracle σ} {mid : Nat} {st : EngSt σ}
    {xs : List (String × String)} {st1 : EngSt σ}
    (h : applyAssertsE O mid st xs = .ok st1) : st1.changes = st.changes := by
  induction xs generalizing st with
  | nil =>
    cases h
    rfl
  | cons p rest ih =>
    obtain ⟨s, v⟩ := p
    unfold applyAssertsE at h
    revert h
    cases assert_symbol O st s v with
    | error e => intro h; cases h
    | ok _ =>
      intro h
      simpa using ih h

theorem applyAssignsE_changesNe {σ : Type} {O : Oracle σ} {mid : Nat} {st : EngSt σ}
    {xs : List (String × String)} {st1 : EngSt σ}
    (h : applyAssignsE O mid st xs = .ok st1) (hP : ChangesNe st) : ChangesNe st1 := by
  induction xs generalizing st with
  | nil =>
    cases h
    exact hP
  | cons p rest ih =>
    obtain ⟨s, v⟩ := p
    unfold applyAssignsE at h
    revert h
    cases hss : set_symbol O st s v with
    | error e => intro h; cases h
    | ok stm =>
      intro h
      exact ih h (fun c hc => set_symbol_changesNe hss hP c hc)

theorem visitD_changesNe {σ : Type} {O : Oracle σ} {pool : List ModuleV} :
    ∀ {fuel : Nat} {st : EngSt σ} {ws : List Nat} {st1 : EngSt σ},
    visitD O pool fuel st ws = .ok st1 → ChangesNe st → ChangesNe st1 := by
  intro fuel
  induction fuel with
  | zero => intro st ws st1 h; cases h
  | succ fuel ih =>
    intro st ws st1 h hP
    match ws with
    | [] =>
      cases h
      exact hP
    | i :: rest =>
      unfold visitD at h
      cases hpm : pool[i]? with
      | none => rw [hpm] at h; cases h
      | some m =>
        rw [hpm] at h
        dsimp only at h
        by_cases hv : st.visited.contains m.name
        · rw [if_pos hv] at h
          exact ih h hP
        · rw [if_neg hv] at h
          cases hdeps : visitD O pool fuel
              { st with visited := st.visited ++ [m.name],
                        trace := st.trace ++ [⟨i, .enter⟩] } m.deps with
          | error e => rw [hdeps] at h; cases h
          | ok st2 =>
            rw [hdeps] at h
            dsimp only at h
            have hP2 : ChangesNe st2 := ih hdeps hP
            cases hasg : applyAssignsE O i (applyMerges O i st2 m.merge_kconf_files)
                m.assignments with
            | error msg => rw [hasg] at h; cases h
            | ok st4 =>
              rw [hasg] at h
              dsimp only at h
              have hP3 : ChangesNe (applyMerges O i st2 m.merge_kconf_files) := by
                intro c hc
                rw [applyMerges_changes] at hc
                exact hP2 c hc
              have hP4 : ChangesNe st4 := applyAssignsE_changesNe hasg hP3
              cases hass : applyAssertsE O i st4 m.assertions with
              | error msg => rw [hass] at h; cases h
              | ok st5 =>
                rw [hass] at h
                dsimp only at h
                have hP5 : ChangesNe st5 := by
                  intro c hc
                  rw [applyAssertsE_changes hass] at hc
                  exact hP4 c hc
                exact ih h hP5

/-- Claim C10: every change record produced by an engine run pairs a
distinct old and new value, and at the `set_symbol` step that produces a
record, the recorded new value is the symbol's value as read back from
the oracle after the set — which may differ from the requested value —
never the requested value itself. -/
theorem c10_change_records {σ : Type} (O : Oracle σ) :
    (∀ (pool : List ModuleV) (σ0 : σ) (fuel root : Nat) (st1 : EngSt σ),
      runConfig O pool σ0 fuel root = .ok st1 →
      ∀ c ∈ st1.changes, c.2.1 ≠ c.2.2) ∧
    (∀ (st : EngSt σ) (s v : String) (st1 : EngSt σ),
      set_symbol O st s v = .ok st1 →
      ∀ c ∈ st1.changes, c ∈ st.changes ∨
        (c.1 = s ∧ c.2.1 ≠ c.2.2 ∧ c.2.2 = O.str_value st1.kc s ∧
          (O.str_value st1.kc s ≠ v → c.2.2 ≠ v))) := by
  constructor
  · intro pool σ0 fuel root st1 h
    exact visitD_changesNe h (by intro c hc; cases hc)
  · exact set_symbol_changes O

def c10pool : List ModuleV := [⟨"root", [], [], [("X", "y")], []⟩]

theorem c10_change_records_witness :
    runConfig KOadj c10pool [] 5 0 = .ok (getOkE (runConfig KOadj c10pool [] 5 0)) ∧
    ("X", "n", "m").2.1 ≠ ("X", "n", "m").2.2 :=
  ⟨rfl,
   (c10_change_records KOadj).1 c10pool [] 5 0 (getOkE (runConfig KOadj c10pool [] 5 0))
     rfl ("X", "n", "m") (by decide)⟩

/-! ## The module graph builder (`ModuleCreator`) -/

/-- A builder-side module (`class Module` in the source).  Dependencies
and reverse dependencies are references to other modules, modelled as
indices into the builder's pool (object identity = pool index). -/
structure ModuleB where
  name : String
  deps : List Nat
  assignments : List (String × String)
  assertions : List (String × String)
  rev_deps : List Nat
deriving DecidableEq

/-- Build-time view of one oracle symbol: its name, the value of
`expr_value(sym.direct_dep)` and the `required_deps(sym)` pairs.  The
oracle state does not change while the builder runs, so this is a fixed
environment indexed by symbol identity. -/
structure SymInfo where
  name : String
  direct_dep : Bool
  rdeps : List (Nat × Bool)

/-- `ModuleCreator` state: the pool of all module objects ever created
(index 0 is `module_select_all`, created in `__init__`), the `modules`
name→module dict and the `module_for_sym` symbol→module dict. -/
structure MCState where
  pool : List ModuleB
  modules : List (String × Nat)
  module_for_sym : List (Nat × Nat)
deriving DecidableEq

def mcInit : MCState := ⟨[⟨"module_select_all", [], [], [], []⟩], [], []⟩

/-- Allocate a new module object and register it under its name
(`self.modules[mod.name] = mod`). -/
def register (st : MCState) (mod : ModuleB) : MCState × Nat :=
  ({ st with pool := st.pool ++ [mod],
             modules := insertA st.modules mod.name st.pool.length },
   st.pool.length)

/-- The dependency loop of `_add_module_for_option`: for each
`(d, v) in required_deps(sym)`, a true pair recursively builds a module
(through `f`, the recursive call at smaller fuel) and appends a
dependency edge, a false pair appends a direct `(d.name, "n")`
assignment. -/
def depLoopG (env : Nat → SymInfo) (f : MCState → Nat → Option (MCState × Nat)) :
    MCState → List (Nat × Bool) → List Nat → List (String × String) →
    Option (MCState × List Nat × List (String × String))
  | st, [], deps, asgs => some (st, deps, asgs)
  | st, (d, v) :: rest, deps, asgs =>
    if v then
      match f st d with
      | none => none
      | some (st1, m) => depLoopG env f st1 rest (deps ++ [m]) asgs
    else depLoopG env f st rest deps (asgs ++ [((env d).name, "n")])

/-- `_add_module_for_option`: create the module with its enabling
assignment, process the dependency pairs only when the direct dependency
expression is not already satisfied, then register the module. -/
def addOptBody (env : Nat → SymInfo) (f : MCState → Nat → Option (MCState × Nat))
    (st : MCState) (s : Nat) : Option (MCState × Nat) :=
  let info := env s
  if info.direct_dep then
    some (register st ⟨"config_" ++ info.name.toLower, [], [(info.name, "y")], [], []⟩)
  else
    match depLoopG env f st info.rdeps [] [] with
    | none => none
    | some (st1, deps, asgs) =>
      some (register st1
        ⟨"config_" ++ info.name.toLower, deps, [(info.name, "y")] ++ asgs, [], []⟩)

/-- `add_module_for_sym`: memoized on symbol identity; a fresh symbol is
built via `_add_module_for_option` and then recorded in
`module_for_sym`.  Fuel models the unbounded Python recursion. -/
def add_module_for_sym (env : Nat → SymInfo) : Nat → MCState → Nat → Option (MCState × Nat)
  | 0, _, _ => none
  | Nat.succ fuel, st, s =>
    match lookupA st.module_for_sym s with
    | some m => some (st, m)
    | none =>
      match addOptBody env (add_module_for_sym env fuel) st s with
      | none => none
      | some (st1, m) =>
        some ({ st1 with module_for_sym := insertA st1.module_for_sym s m }, m)

/-! ## Claim C3 -/

theorem add_module_for_sym_bound {env : Nat → SymInfo} {fuel : Nat} {st : MCState}
    {s : Nat} {st1 : MCState} {m : Nat}
    (h : add_module_for_sym env fuel st s = some (st1, m)) :
    lookupA st1.module_for_sym s = some m := by
  match fuel with
  | 0 => cases h
  | Nat.succ fuel =>
    unfold add_module_for_sym at h
    revert h
    cases hl : lookupA st.module_for_sym s with
    | some m0 =>
      intro h
      cases h
      exact hl
    | none =>
      cases hb : addOptBody env (add_module_for_sym env fuel) st s with
      | none => intro h; cases h
      | some p =>
        intro h
        obtain ⟨sta, ma⟩ := p
        cases h
        exact lookupA_insertA_self _ _ _

/-- Claim C3: `add_module_for_sym` is idempotent — once a call has built
(or found) the module for a symbol, any later call on the same symbol in
the same builder instance returns the very same module identity and the
very same state (in particular, no second module is created). -/
theorem c3_add_module_idempotent (env : Nat → SymInfo) (fuel fuel2 : Nat) (st : MCState)
    (s : Nat) (st1 : MCState) (m : Nat)
    (h : add_module_for_sym env fuel st s = some (st1, m)) (hf : 0 < fuel2) :
    add_module_for_sym env fuel2 st1 s = some (st1, m) := by
  obtain ⟨k, rfl⟩ : ∃ k, fuel2 = k + 1 :=
    ⟨fuel2 - 1, (Nat.succ_pred_eq_of_pos hf).symm⟩
  unfold add_module_for_sym
  rw [add_module_for_sym_bound h]

def envSingle : Nat → SymInfo := fun _ => ⟨"FOO", true, []⟩

def getMC : Option (MCState × Nat) → MCState × Nat := fun o => o.getD (mcInit, 0)

theorem c3_add_module_idempotent_witness :
    add_module_for_sym envSingle 1 mcInit 0 =
      some ((getMC (add_module_for_sym envSingle 1 mcInit 0)).1,
            (getMC (add_module_for_sym envSingle 1 mcInit 0)).2) ∧
    add_module_for_sym envSingle 2 (getMC (add_module_for_sym envSingle 1 mcInit 0)).1 0 =
      some ((getMC (add_module_for_sym envSingle 1 mcInit 0)).1,
            (getMC (add_module_for_sym envSingle 1 mcInit 0)).2) :=
  ⟨rfl,
   c3_add_module_idempotent envSingle 1 2 mcInit 0
     (getMC (add_module_for_sym envSingle 1 mcInit 0)).1
     (getMC (add_module_for_sym envSingle 1 mcInit 0)).2 rfl (by decide)⟩

/-! ## Claim C6 -/

/-- A symbol whose unsatisfied dependency expression requires the symbol
itself: `required_deps` reports `(S, true)` for `S`. -/
def envCyc : Nat → SymInfo := fun _ => ⟨"S", false, [(0, true)]⟩

theorem envCyc_no_fuel_suffices (fuel : Nat) :
    ∀ st : MCState, lookupA st.module_for_sym 0 = none →
      add_module_for_sym envCyc fuel st 0 = none := by
  induction fuel with
  | zero => intro st _; rfl
  | succ fuel ih =>
    intro st h
    unfold add_module_for_sym
    rw [h]
    have hrec : add_module_for_sym envCyc fuel st 0 = none := ih st h
    simp [addOptBody, envCyc, depLoopG, hrec]

/-- Claim C6 exhibits a missing safety check (`code_bug`): on a cyclic
dependency requirement the builder never raises a cycle error — it
recurses unboundedly.  In the fuel model: no amount of fuel makes
`add_module_for_sym` return on the cyclic environment, i.e. the Python
original diverges by unbounded recursion instead of failing with an
explicit `DependencyCycleError`. -/
theorem c6_no_cycle_check :
    ∀ fuel : Nat, add_module_for_sym envCyc fuel mcInit 0 = none := fun fuel =>
  envCyc_no_fuel_suffices fuel mcInit rfl

/-! ## Claim C4 -/

theorem lookupA_insertA {κ β : Type} [DecidableEq κ] (l : List (κ × β)) (k x : κ) (v : β) :
    lookupA (insertA l k v) x = if k = x then some v else lookupA l x := by
  by_cases h : k = x
  · subst h
    simp [lookupA_insertA_self]
  · simp [h, lookupA_insertA_ne l k x v h]

/-- All symbol→module bindings point into the pool. -/
def VBp (st : MCState) : Prop :=
  ∀ x r, lookupA st.module_for_sym x = some r → r < st.pool.length

/-- Distinct symbols are bound to distinct module identities. -/
def InjP (st : MCState) : Prop :=
  ∀ x y r, lookupA st.module_for_sym x = some r →
    lookupA st.module_for_sym y = some r → x = y

theorem injA_insert (l : List (Nat × Nat)) (k v : Nat)
    (hInj : ∀ x y r, lookupA l x = some r → lookupA l y = some r → x = y)
    (hfresh : ∀ x r, lookupA l x = some r → r ≠ v) :
    ∀ x y r, lookupA (insertA l k v) x = some r →
      lookupA (insertA l k v) y = some r → x = y := by
  intro x y r hx hy
  rw [lookupA_insertA] at hx hy
  by_cases hkx : k = x
  · rw [if_pos hkx] at hx
    by_cases hky : k = y
    · rw [← hkx, ← hky]
    · rw [if_neg hky] at hy
      cases hx
      exact absurd rfl (hfresh y v hy)
  · rw [if_neg hkx] at hx
    by_cases hky : k = y
    · rw [if_pos hky] at hy
      cases hy
      exact absurd rfl (hfresh x v hx)
    · rw [if_neg hky] at hy
      exact hInj x y r hx hy

/-- Bundled well-behavedness of a recursive builder step function: the
pool only grows, existing bindings are stable, the requested symbol ends
up bound to the returned module, new bindings are fresh, and boundedness
and injectivity of the binding map are preserved. -/
def GoodF (f : MCState → Nat → Option (MCState × Nat)) : Prop :=
  ∀ st s st1 m, f st s = some (st1, m) →
    st.pool <+: st1.pool ∧
    (∀ x r, lookupA st.module_for_sym x = some r → lookupA st1.module_for_sym x = some r) ∧
    lookupA st1.module_for_sym s = some m ∧
    (∀ x r, lookupA st1.module_for_sym x = some r →
      lookupA st.module_for_sym x = some r ∨ st.pool.length ≤ r) ∧
    (VBp st → VBp st1) ∧
    (VBp st → InjP st → InjP st1)

theorem depLoopG_spec {env : Nat → SymInfo} {f : MCState → Nat → Option (MCState × Nat)}
    (hf : GoodF f) :
    ∀ (pairs : List (Nat × Bool)) (st : MCState) (accd : List Nat)
      (acca : List (String × String)) (st1 : MCState) (deps : List Nat)
      (asgs : List (String × String)),
    depLoopG env f st pairs accd acca = some (st1, deps, asgs) →
    st.pool <+: st1.pool ∧
    (∀ x r, lookupA st.module_for_sym x = some r → lookupA st1.module_for_sym x = some r) ∧
    (∀ x r, lookupA st1.module_for_sym x = some r →
      lookupA st.module_for_sym x = some r ∨ st.pool.length ≤ r) ∧
    (VBp st → VBp st1) ∧
    (VBp st → InjP st → InjP st1) ∧
    asgs = acca ++ pairs.filterMap
      (fun p => if p.2 then none else some ((env p.1).name, "n")) ∧
    deps.length = accd.length + (pairs.filter (fun p => p.2)).length ∧
    (∃ newd, deps = accd ++ newd) ∧
    (∀ p ∈ pairs, p.2 = true →
      ∃ md, lookupA st1.module_for_sym p.1 = some md ∧ md ∈ deps) ∧
    (∀ md ∈ deps, md ∈ accd ∨
      ∃ e, (e, true) ∈ pairs ∧ lookupA st1.module_for_sym e = some md) := by
  intro pairs
  induction pairs with
  | nil =>
    intro st accd acca st1 deps asgs h
    cases h
    refine ⟨List.prefix_rfl, fun x r hx => hx, fun x r hx => Or.inl hx,
      fun hVB => hVB, fun hVB hI => hI, by simp, by simp, ⟨[], by simp⟩, by simp, ?_⟩
    intro md hmd
    exact Or.inl hmd
  | cons p rest ih =>
    intro st accd acca st1 deps asgs h
    obtain ⟨d, v⟩ := p
    cases v with
    | true =>
      unfold depLoopG at h
      rw [if_pos rfl] at h
      revert h
      cases hstep : f st d with
      | none => intro h; cases h
      | some q =>
        intro h
        obtain ⟨stm, md⟩ := q
        obtain ⟨hpre1, hstab1, hbound1, hnew1, hVB1, hInj1⟩ := hf st d stm md hstep
        obtain ⟨hpre2, hstab2, hnew2, hVB2, hInj2, hasgs, hlen, ⟨newd, hdeps⟩,
          htrue, hchar⟩ := ih stm (accd ++ [md]) acca st1 deps asgs h
        refine ⟨hpre1.trans hpre2, fun x r hx => hstab2 x r (hstab1 x r hx), ?_,
          fun hVB => hVB2 (hVB1 hVB), fun hVB hI => hInj2 (hVB1 hVB) (hInj1 hVB hI),
          by simpa using hasgs, by simp [hlen]; omega, ⟨[md] ++ newd, by simp [hdeps]⟩,
          ?_, ?_⟩
        · intro x r hx
          rcases hnew2 x r hx with hx2 | hge
          · rcases hnew1 x r hx2 with hx1 | hge1
            · exact Or.inl hx1
            · exact Or.inr hge1
          · exact Or.inr (le_trans hpre1.length_le hge)
        · intro p hp hp2
          rcases List.mem_cons.mp hp with heq | hmem
          · cases heq
            refine ⟨md, hstab2 d md hbound1, ?_⟩
            rw [hdeps]
            simp
          · exact htrue p hmem hp2
        · intro md2 hmd2
          rcases hchar md2 hmd2 with hacc | ⟨e, he, hle⟩
          · rcases List.mem_append.mp hacc with ha | hb
            · exact Or.inl ha
            · rcases List.mem_singleton.mp hb with rfl
              exact Or.inr ⟨d, List.mem_cons_self _ _, hstab2 d _ hbound1⟩
          · exact Or.inr ⟨e, List.mem_cons_of_mem _ he, hle⟩
    | false =>
      unfold depLoopG at h
      rw [if_neg (by simp)] at h
      obtain ⟨hpre2, hstab2, hnew2, hVB2, hInj2, hasgs, hlen, ⟨newd, hdeps⟩,
        htrue, hchar⟩ := ih st accd (acca ++ [((env d).name, "n")]) st1 deps asgs h
      refine ⟨hpre2, hstab2, hnew2, hVB2, hInj2, by simpa using hasgs,
        by simpa using hlen, ⟨newd, hdeps⟩, ?_, ?_⟩
      · intro p hp hp2
        rcases List.mem_cons.mp hp with heq | hmem
        · cases heq
          cases hp2
        · exact htrue p hmem hp2
      · intro md2 hmd2
        rcases hchar md2 hmd2 with hacc | ⟨e, he, hle⟩
        · exact Or.inl hacc
        · exact Or.inr ⟨e, List.mem_cons_of_mem _ he, hle⟩

theorem addOptBody_spec {env : Nat → SymInfo} {f : MCState → Nat → Option (MCState × Nat)}
    (hf : GoodF f) {st : MCState} {s : Nat} {st1 : MCState} {m : Nat}
    (h : addOptBody env f st s = some (st1, m)) :
    ∃ p0 mod, st.pool <+: p0 ∧ st1.pool = p0 ++ [mod] ∧ m = p0.length ∧
    (∀ x r, lookupA st.module_for_sym x = some r → lookupA st1.module_for_sym x = some r) ∧
    (∀ x r, lookupA st1.module_for_sym x = some r →
      lookupA st.module_for_sym x = some r ∨ st.pool.length ≤ r) ∧
    (VBp st → ∀ x r, lookupA st1.module_for_sym x = some r → r < p0.length) ∧
    (VBp st → InjP st → InjP st1) := by
  unfold addOptBody at h
  by_cases hd : (env s).direct_dep
  · rw [if_pos hd] at h
    unfold register at h
    cases h
    refine ⟨st.pool, _, List.prefix_rfl, rfl, rfl, fun x r hx => hx,
      fun x r hx => Or.inl hx, fun hVB x r hx => hVB x r hx, fun _ hI => hI⟩
  · rw [if_neg hd] at h
    revert h
    cases hL : depLoopG env f st (env s).rdeps [] [] with
    | none => intro h; cases h
    | some q =>
      intro h
      obtain ⟨stL, deps, asgs⟩ := q
      obtain ⟨hpre, hstab, hnew, hVB, hInj, _, _, _, _, _⟩ :=
        depLoopG_spec hf (env s).rdeps st [] [] stL deps asgs hL
      unfold register at h
      cases h
      refine ⟨stL.pool, _, hpre, rfl, rfl, hstab, hnew, ?_, hInj⟩
      intro hVBst x r hx
      exact hVB hVBst x r hx

theorem add_module_for_sym_good (env : Nat → SymInfo) :
    ∀ fuel : Nat, GoodF (add_module_for_sym env fuel) := by
  intro fuel
  induction fuel with
  | zero => intro st s st1 m h; cases h
  | succ fuel ih =>
    intro st s st1 m h
    unfold add_module_for_sym at h
    revert h
    cases hl : lookupA st.module_for_sym s with
    | some m0 =>
      intro h
      cases h
      exact ⟨List.prefix_rfl, fun x r hx => hx, hl, fun x r hx => Or.inl hx,
        fun hVB => hVB, fun _ hI => hI⟩
    | none =>
      cases hb : addOptBody env (add_module_for_sym env fuel) st s with
      | none => intro h; cases h
      | some q =>
        intro h
        obtain ⟨sta, ma⟩ := q
        cases h
        obtain ⟨p0, mod, hpre, hpool, hm, hstab, hnew, hstrict, hInj⟩ :=
          addOptBody_spec ih hb
        refine ⟨?_, ?_, lookupA_insertA_self _ _ _, ?_, ?_, ?_⟩
        · show st.pool <+: sta.pool
          rw [hpool]
          exact hpre.trans (List.prefix_append p0 [mod])
        · intro x r hx
          have hxs : x ≠ s := by
            intro hxy
            rw [hxy, hl] at hx
            cases hx
          show lookupA (insertA sta.module_for_sym s m) x = some r
          rw [lookupA_insertA_ne _ _ _ _ (fun he => hxs he.symm)]
          exact hstab x r hx
        · intro x r hx
          rw [show ({ sta with module_for_sym := insertA sta.module_for_sym s m } :
              MCState).module_for_sym = insertA sta.module_for_sym s m from rfl,
            lookupA_insertA] at hx
          by_cases hsx : s = x
          · rw [if_pos hsx] at hx
            cases hx
            exact Or.inr (by rw [hm]; exact hpre.length_le)
          · rw [if_neg hsx] at hx
            exact hnew x r hx
        · intro hVB x r hx
          rw [show ({ sta with module_for_sym := insertA sta.module_for_sym s m } :
              MCState).module_for_sym = insertA sta.module_for_sym s m from rfl,
            lookupA_insertA] at hx
          show r < sta.pool.length
          rw [hpool, List.length_append]
          by_cases hsx : s = x
          · rw [if_pos hsx] at hx
            cases hx
            rw [hm]
            simp
          · rw [if_neg hsx] at hx
            have := hstrict hVB x r hx
            simp
            omega
        · intro hVB hI x y r hx hy
          exact injA_insert sta.module_for_sym s m (hInj hVB hI)
            (fun x2 r2 hx2 => by
              have h1 := hstrict hVB x2 r2 hx2
              rw [hm]
              omega) x y r hx hy

/-- Full characterization of one `_add_module_for_option` call: the
module built for symbol `s` (looked up at its identity `m` in the
resulting pool).  When the direct dependency expression is already
satisfied no dependency processing happens at all; otherwise every true
required pair contributes a dependency edge to the (recursively built)
module for that symbol and every false pair contributes only a direct
`(name, "n")` assignment — no dependency edge and no module of its
own. -/
def C4Concl (env : Nat → SymInfo) (s : Nat) (st st1 : MCState) (m : Nat) : Prop :=
  ∃ mod, st1.pool[m]? = some mod ∧
    mod.name = "config_" ++ (env s).name.toLower ∧
    ((env s).direct_dep = true →
      mod.deps = [] ∧ mod.assignments = [((env s).name, "y")] ∧
      st1.pool = st.pool ++ [mod] ∧
      st1.module_for_sym = st.module_for_sym) ∧
    ((env s).direct_dep = false →
      mod.assignments = ((env s).name, "y") ::
        (env s).rdeps.filterMap
          (fun p => if p.2 then none else some ((env p.1).name, "n")) ∧
      mod.deps.length = ((env s).rdeps.filter (fun p => p.2)).length ∧
      (∀ p ∈ (env s).rdeps, p.2 = true →
        ∃ md, lookupA st1.module_for_sym p.1 = some md ∧ md ∈ mod.deps) ∧
      (∀ p ∈ (env s).rdeps, p.2 = false →
        ((env p.1).name, "n") ∈ mod.assignments ∧
        ((∀ e, (e, true) ∈ (env s).rdeps → e ≠ p.1) →
          ∀ md, lookupA st1.module_for_sym p.1 = some md → md ∉ mod.deps)))

/-- Claim C4: dependency processing of the module graph builder, exactly
as `_add_module_for_option` performs it. -/
theorem c4_dependency_processing (env : Nat → SymInfo) (fuel : Nat) (st : MCState)
    (s : Nat) (st1 : MCState) (m : Nat) (hVB : VBp st) (hInj : InjP st)
    (h : addOptBody env (add_module_for_sym env fuel) st s = some (st1, m)) :
    C4Concl env s st st1 m := by
  unfold addOptBody at h
  by_cases hd : (env s).direct_dep
  · rw [if_pos hd] at h
    unfold register at h
    cases h
    refine ⟨_, List.getElem?_concat_length _ _, rfl, ?_, ?_⟩
    · intro _
      exact ⟨rfl, rfl, rfl, rfl⟩
    · intro hdf
      rw [hd] at hdf
      cases hdf
  · rw [if_neg hd] at h
    revert h
    cases hL : depLoopG env (add_module_for_sym env fuel) st (env s).rdeps [] [] with
    | none => intro h; cases h
    | some q =>
      intro h
      obtain ⟨stL, deps, asgs⟩ := q
      obtain ⟨hpre, hstab, hnew, hVBL, hInjL, hasgs, hlen, _, htrue, hchar⟩ :=
        depLoopG_spec (add_module_for_sym_good env fuel) (env s).rdeps st [] [] stL deps asgs hL
      unfold register at h
      cases h
      refine ⟨_, List.getElem?_concat_length _ _, rfl, ?_, ?_⟩
      · intro hdt
        rw [hdt] at hd
        exact absurd rfl hd
      · intro _
        refine ⟨by simpa using hasgs, by simpa using hlen, ?_, ?_⟩
        · intro p hp hp2
          exact htrue p hp hp2
        · intro p hp hp2
          constructor
          · show ((env p.1).name, "n") ∈ ((env s).name, "y") :: asgs
            rw [hasgs]
            refine List.mem_cons_of_mem _ (List.mem_append.mpr (Or.inr ?_))
            exact List.mem_filterMap.mpr ⟨p, hp, by rw [hp2]; simp⟩
          · intro hNoTrue md hmd hin
            rcases hchar md hin with habs | ⟨e, he, hle⟩
            · cases habs
            · have heq : e = p.1 :=
                hInjL hVB hInj e p.1 md hle hmd
              exact hNoTrue e he heq

/-- Witness environment: symbol 0 ("S") requires symbol 1 ("A") on and
symbol 2 ("B") off; A's own dependencies are already satisfied. -/
def env4 : Nat → SymInfo := fun s =>
  match s with
  | 0 => ⟨"S", false, [(1, true), (2, false)]⟩
  | 1 => ⟨"A", true, []⟩
  | _ => ⟨"B", true, []⟩

theorem c4_dependency_processing_witness :
    addOptBody env4 (add_module_for_sym env4 3) mcInit 0 =
      some ((getMC (addOptBody env4 (add_module_for_sym env4 3) mcInit 0)).1,
            (getMC (addOptBody env4 (add_module_for_sym env4 3) mcInit 0)).2) ∧
    C4Concl env4 0 mcInit
      (getMC (addOptBody env4 (add_module_for_sym env4 3) mcInit 0)).1
      (getMC (addOptBody env4 (add_module_for_sym env4 3) mcInit 0)).2 :=
  ⟨rfl,
   c4_dependency_processing env4 3 mcInit 0
     (getMC (addOptBody env4 (add_module_for_sym env4 3) mcInit 0)).1
     (getMC (addOptBody env4 (add_module_for_sym env4 3) mcInit 0)).2
     (fun _ _ h => nomatch h) (fun _ _ _ hx _ => nomatch hx) rfl⟩

/-! ## Claim C9 -/

/-- Functional update of one pool entry (mutation of a module object
reached through a reference). -/
def modifyIdx : List ModuleB → Nat → (ModuleB → ModuleB) → List ModuleB
  | [], _, _ => []
  | x :: xs, 0, f => f x :: xs
  | x :: xs, Nat.succ n, f => x :: modifyIdx xs n f

/-- `ModuleCreator.select_module`: append the module to
`module_select_all.deps` (the select-all module lives at pool index 0). -/
def select_module (st : MCState) (mid : Nat) : MCState :=
  { st with pool := modifyIdx st.pool 0 (fun mo => { mo with deps := mo.deps ++ [mid] }) }

/-- Python `"{:04d}".format(i)`. -/
def pad4 (n : Nat) : String :=
  let s := toString n
  String.mk (List.replicate (4 - s.length) '0') ++ s

/-- The options loop of `add_module_for_detected_node`: one Graph-Builder
module per candidate option, each appended as a dependency. -/
def optsLoop (env : Nat → SymInfo) (fuel : Nat) :
    MCState → List Nat → List Nat → Option (MCState × List Nat)
  | st, [], deps => some (st, deps)
  | st, o :: rest, deps =>
    match add_module_for_sym env fuel st o with
    | none => none
    | some (st1, m) => optsLoop env fuel st1 rest (deps ++ [m])

/-- The node loop of `detect_modules`: for every detected node (already
sorted by canonical name), query the catalog; with at least one candidate
option, build the per-node module, register it and select it, bumping the
local module counter; otherwise skip the node entirely. -/
def detectLoop (env : Nat → SymInfo) (catalog : String → List Nat) (fuel : Nat) :
    MCState → Nat → List String → Option (MCState × Nat)
  | st, ctr, [] => some (st, ctr)
  | st, ctr, n :: rest =>
    if 0 < (catalog n).length then
      match optsLoop env fuel st (catalog n) [] with
      | none => none
      | some (st1, deps) =>
        let rm := register st1 ⟨pad4 ctr ++ "_" ++ n, deps, [], [], []⟩
        detectLoop env catalog fuel (select_module rm.1 rm.2) (ctr + 1) rest
    else detectLoop env catalog fuel st ctr rest

/-- `detect_modules`: sort the detected nodes by canonical name, then run
the node loop on a fresh `ModuleCreator`. -/
def detect_modules (env : Nat → SymInfo) (catalog : String → List Nat) (fuel : Nat)
    (nodes : List String) : Option (MCState × Nat) :=
  detectLoop env catalog fuel mcInit 0 (nodes.insertionSort (· ≤ ·))

/-- Claim C9: a detected component with zero candidate options contributes
nothing — running the node loop is identical to running it on the node
list with all zero-candidate components removed, so no module is created
for such a component and it adds no entry to the select-all module's
dependency list (and it does not advance the local module counter). -/
theorem c9_skip_empty (env : Nat → SymInfo) (catalog : String → List Nat) (fuel : Nat) :
    ∀ (nodes : List String) (st : MCState) (ctr : Nat),
    detectLoop env catalog fuel st ctr nodes =
      detectLoop env catalog fuel st ctr
        (nodes.filter (fun n => 0 < (catalog n).length)) := by
  intro nodes
  induction nodes with
  | nil => intro st ctr; rfl
  | cons n rest ih =>
    intro st ctr
    by_cases h : 0 < (catalog n).length
    · have hf : (n :: rest).filter (fun n => 0 < (catalog n).length) =
          n :: rest.filter (fun n => 0 < (catalog n).length) := by
        simp [List.filter_cons, h]
      rw [hf]
      simp only [detectLoop]
      rw [if_pos h, if_pos h]
      cases optsLoop env fuel st (catalog n) [] with
      | none => rfl
      | some q => exact ih _ _
    · have hf : (n :: rest).filter (fun n => 0 < (catalog n).length) =
          rest.filter (fun n => 0 < (catalog n).length) := by
        simp [List.filter_cons, h]
      rw [hf]
      simp only [detectLoop]
      rw [if_neg h]
      exact ih st ctr

/-! ## Claim C7 -/

/-- Python's `needle in hay` on strings: contiguous substring test
(the empty string is a substring of everything). -/
def pySubstr (needle : List Char) : List Char → Bool
  | [] => needle.isEmpty
  | c :: rest => needle.isPrefixOf (c :: rest) || pySubstr needle rest

def nameOfB (pool : List ModuleB) (i : Nat) : String :=
  ((pool[i]?).map (fun mo => mo.name)).getD ""

/-- CPython `"{}".format(tuple)` for a pair of plain strings. -/
def pyReprPair (o : String × String) : String :=
  "(\x27" ++ o.1 ++ "\x27, \x27" ++ o.2 ++ "\x27)"

/-- One assignment line of `KernelConfigWriter.write_module`: the value
is left unquoted exactly when Python's `v in "nmy"` holds (a substring
test), quoted otherwise. -/
def assignLine (a v : String) : String :=
  if pySubstr v.toList "nmy".toList then "CONFIG_" ++ a ++ "=" ++ v ++ "\n"
  else "CONFIG_" ++ a ++ "=\x22" ++ v ++ "\x22\n"

def assertLine (o : String × String) : String :=
  "# REQUIRES " ++ pyReprPair o ++ "\n"

/-- `KernelConfigWriter.write_module` as the list of lines it writes.  A
module with neither assignments nor assertions writes nothing; otherwise:
one "required by" comment per reverse dependency, a module-name comment,
one line per assignment, one comment line per assertion. -/
def write_module (pool : List ModuleB) (m : ModuleB) : List String :=
  if m.assignments.length = 0 ∧ m.assertions.length = 0 then []
  else
    m.rev_deps.map (fun d => "# required by " ++ nameOfB pool d ++ "\n") ++
    ["# module " ++ m.name ++ "\n"] ++
    m.assignments.map (fun av => assignLine av.1 av.2) ++
    m.assertions.map assertLine

def c7mod : ModuleB := ⟨"t", [], [("FOO", "nm")], [], []⟩

/-- Claim C7 as stated is false: the value "nm" is not a tri-state value
("n", "m" or "y"), so per the claim it would be a string-typed value and
must be quoted — but the writer renders it unquoted, because the code's
test is Python's substring operator `v in "nmy"`, which "nm" passes. -/
theorem c7_counterexample :
    write_module [] c7mod = ["# module t\n", "CONFIG_FOO=nm\n"] ∧
    ("FOO", "nm") ∈ c7mod.assignments ∧
    "nm" ≠ "n" ∧ "nm" ≠ "m" ∧ "nm" ≠ "y" := by
  refine ⟨rfl, ?_, ?_, ?_, ?_⟩ <;> decide

/-- Claim C7, amended: every assignment is rendered as one
`CONFIG_NAME=value` line whose value is unquoted exactly when it is a
contiguous substring of "nmy" (this includes the tri-state values "n",
"m", "y", but also "", "nm", "my" and "nmy") and double-quoted
otherwise; every assertion is rendered as a comment line (first
character `#`), not an executable check. -/
theorem c7_amended (pool : List ModuleB) (m : ModuleB) :
    (∀ p ∈ m.assignments,
      assignLine p.1 p.2 ∈ write_module pool m ∧
      (pySubstr p.2.toList "nmy".toList = true →
        assignLine p.1 p.2 = "CONFIG_" ++ p.1 ++ "=" ++ p.2 ++ "\n") ∧
      (pySubstr p.2.toList "nmy".toList = false →
        assignLine p.1 p.2 = "CONFIG_" ++ p.1 ++ "=\x22" ++ p.2 ++ "\x22\n") ∧
      ((p.2 = "n" ∨ p.2 = "m" ∨ p.2 = "y") →
        assignLine p.1 p.2 = "CONFIG_" ++ p.1 ++ "=" ++ p.2 ++ "\n")) ∧
    (∀ o ∈ m.assertions,
      assertLine o ∈ write_module pool m ∧
      (assertLine o).data.head? = some '#') := by
  constructor
  · intro p hp
    have hne : ¬(m.assignments.length = 0 ∧ m.assertions.length = 0) := by
      rintro ⟨h1, -⟩
      rw [List.length_eq_zero] at h1
      rw [h1] at hp
      cases hp
    refine ⟨?_, ?_, ?_, ?_⟩
    · unfold write_module
      rw [if_neg hne]
      have hmem : assignLine p.1 p.2 ∈ m.assignments.map (fun av => assignLine av.1 av.2) :=
        List.mem_map.mpr ⟨p, hp, rfl⟩
      simp [List.mem_append, hmem]
    · intro ht
      unfold assignLine
      rw [if_pos ht]
    · intro ht
      have ht2 : ¬(pySubstr p.2.toList "nmy".toList = true) := by
        rw [ht]
        exact Bool.false_ne_true
      unfold assignLine
      rw [if_neg ht2]
    · rintro (h | h | h) <;> rw [h] <;> rfl
  · intro o ho
    have hne : ¬(m.assignments.length = 0 ∧ m.assertions.length = 0) := by
      rintro ⟨-, h2⟩
      rw [List.length_eq_zero] at h2
      rw [h2] at ho
      cases ho
    constructor
    · unfold write_module
      rw [if_neg hne]
      have hmem : assertLine o ∈ m.assertions.map assertLine :=
        List.mem_map.mpr ⟨o, ho, rfl⟩
      simp [List.mem_append, hmem]
    · simp [assertLine, String.data_append]

def c7mod2 : ModuleB := ⟨"u", [], [("FOO", "hello")], [("BAR", "y")], []⟩

theorem c7_amended_witness :
    assignLine "FOO" "hello" ∈ write_module [] c7mod2 ∧
    assignLine "FOO" "hello" = "CONFIG_FOO=\x22hello\x22\n" ∧
    assertLine ("BAR", "y") ∈ write_module [] c7mod2 ∧
    (assertLine ("BAR", "y")).data.head? = some '#' :=
  ⟨((c7_amended [] c7mod2).1 ("FOO", "hello") (by decide)).1,
   ((c7_amended [] c7mod2).1 ("FOO", "hello") (by decide)).2.2.1 (by decide),
   ((c7_amended [] c7mod2).2 ("BAR", "y") (by decide)).1,
   ((c7_amended [] c7mod2).2 ("BAR", "y") (by decide)).2⟩

/-! ## Claim C8 -/

def depsAt (p : List ModuleB) (i : Nat) : List Nat :=
  ((p[i]?).map (fun mo => mo.deps)).getD []

def revAt (p : List ModuleB) (i : Nat) : List Nat :=
  ((p[i]?).map (fun mo => mo.rev_deps)).getD []

/-- First loop of `_create_reverse_deps`: clear the `rev_deps` of every
registered module. -/
def clearRevLoop : List ModuleB → List (String × Nat) → List ModuleB
  | p, [] => p
  | p, e :: rest => clearRevLoop (modifyIdx p e.2 (fun mo => { mo with rev_deps := [] })) rest

/-- `d.rev_deps.append(dependent)` through the reference `d`. -/
def addRev (p : List ModuleB) (d dependent : Nat) : List ModuleB :=
  modifyIdx p d (fun mo => { mo with rev_deps := mo.rev_deps ++ [dependent] })

def fillRevDeps (dependent : Nat) : List ModuleB → List Nat → List ModuleB
  | p, [] => p
  | p, d :: rest => fillRevDeps dependent (addRev p d dependent) rest

/-- Second loop of `_create_reverse_deps`: for each registered module (in
registration order) append it to the `rev_deps` of each of its
dependencies. -/
def fillRevLoop : List ModuleB → List (String × Nat) → List ModuleB
  | p, [] => p
  | p, e :: rest => fillRevLoop (fillRevDeps e.2 p (depsAt p e.2)) rest

/-- `ModuleCreator._create_reverse_deps`: clear all reverse-dependency
lists (registered modules, then the select-all module at index 0), then
fill them from the dependency edges of the registered modules and
finally from the select-all module's edges. -/
def create_reverse_deps (st : MCState) : MCState :=
  let p1 := clearRevLoop st.pool st.modules
  let p2 := modifyIdx p1 0 (fun mo => { mo with rev_deps := [] })
  let p3 := fillRevLoop p2 st.modules
  let p4 := fillRevDeps 0 p3 (depsAt p3 0)
  { st with pool := p4 }

theorem modifyIdx_length (p : List ModuleB) (i : Nat) (f : ModuleB → ModuleB) :
    (modifyIdx p i f).length = p.length := by
  induction p generalizing i with
  | nil => rfl
  | cons x xs ih =>
    cases i with
    | zero => rfl
    | succ n => simp [modifyIdx, ih]

theorem getElem?_modifyIdx_eq (p : List ModuleB) (i : Nat) (f : ModuleB → ModuleB) :
    (modifyIdx p i f)[i]? = (p[i]?).map f := by
  induction p generalizing i with
  | nil => cases i <;> rfl
  | cons x xs ih =>
    cases i with
    | zero => simp [modifyIdx]
    | succ n => simpa [modifyIdx] using ih n

theorem getElem?_modifyIdx_ne (p : List ModuleB) (i j : Nat) (f : ModuleB → ModuleB)
    (h : i ≠ j) : (modifyIdx p i f)[j]? = p[j]? := by
  induction p generalizing i j with
  | nil => cases i <;> rfl
  | cons x xs ih =>
    cases i with
    | zero =>
      cases j with
      | zero => exact absurd rfl h
      | succ k => simp [modifyIdx]
    | succ n =>
      cases j with
      | zero => simp [modifyIdx]
      | succ k => simpa [modifyIdx] using ih n k (fun he => h (by rw [he]))

theorem depsAt_modifyIdx (p : List ModuleB) (i j : Nat) (f : ModuleB → ModuleB)
    (hf : ∀ mo, (f mo).deps = mo.deps) : depsAt (modifyIdx p i f) j = depsAt p j := by
  by_cases hij : i = j
  · subst hij
    unfold depsAt
    rw [getElem?_modifyIdx_eq]
    cases p[i]? with
    | none => rfl
    | some mo => simp [hf]
  · unfold depsAt
    rw [getElem?_modifyIdx_ne p i j f hij]

theorem depsAt_clearRevLoop (mods : List (String × Nat)) (p : List ModuleB) (j : Nat) :
    depsAt (clearRevLoop p mods) j = depsAt p j := by
  induction mods generalizing p with
  | nil => rfl
  | cons e rest ih =>
    rw [clearRevLoop, ih]
    exact depsAt_modifyIdx _ _ _ _ (fun mo => rfl)

theorem depsAt_addRev (p : List ModuleB) (d dep j : Nat) :
    depsAt (addRev p d dep) j = depsAt p j := by
  rw [addRev]
  exact depsAt_modifyIdx _ _ _ _ (fun mo => rfl)

theorem depsAt_fillRevDeps (dep : Nat) (ds : List Nat) (p : List ModuleB) (j : Nat) :
    depsAt (fillRevDeps dep p ds) j = depsAt p j := by
  induction ds generalizing p with
  | nil => rfl
  | cons d rest ih => rw [fillRevDeps, ih, depsAt_addRev]

theorem depsAt_fillRevLoop (mods : List (String × Nat)) (p : List ModuleB) (j : Nat) :
    depsAt (fillRevLoop p mods) j = depsAt p j := by
  induction mods generalizing p with
  | nil => rfl
  | cons e rest ih => rw [fillRevLoop, ih, depsAt_fillRevDeps]

theorem clearRevLoop_length (mods : List (String × Nat)) (p : List ModuleB) :
    (clearRevLoop p mods).length = p.length := by
  induction mods generalizing p with
  | nil => rfl
  | cons e rest ih => rw [clearRevLoop, ih, modifyIdx_length]

theorem fillRevDeps_length (dep : Nat) (ds : List Nat) (p : List ModuleB) :
    (fillRevDeps dep p ds).length = p.length := by
  induction ds generalizing p with
  | nil => rfl
  | cons d rest ih => rw [fillRevDeps, ih, addRev, modifyIdx_length]

theorem fillRevLoop_length (mods : List (String × Nat)) (p : List ModuleB) :
    (fillRevLoop p mods).length = p.length := by
  induction mods generalizing p with
  | nil => rfl
  | cons e rest ih => rw [fillRevLoop, ih, fillRevDeps_length]

theorem revAt_addRev_eq (p : List ModuleB) (X dep : Nat) (hX : X < p.length) :
    revAt (addRev p X dep) X = revAt p X ++ [dep] := by
  rw [revAt, addRev, getElem?_modifyIdx_eq]
  rw [List.getElem?_eq_getElem hX]
  simp [revAt, List.getElem?_eq_getElem hX]

theorem revAt_addRev_ne (p : List ModuleB) (d X dep : Nat) (h : d ≠ X) :
    revAt (addRev p d dep) X = revAt p X := by
  rw [revAt, addRev, getElem?_modifyIdx_ne p d X _ h, revAt]

theorem revAt_fillRevDeps (dep : Nat) (ds : List Nat) (p : List ModuleB) (X : Nat)
    (hX : X < p.length) (hnd : ds.Nodup) :
    revAt (fillRevDeps dep p ds) X = revAt p X ++ (if X ∈ ds then [dep] else []) := by
  induction ds generalizing p with
  | nil => simp [fillRevDeps]
  | cons d rest ih =>
    rw [fillRevDeps]
    by_cases hdX : d = X
    · subst hdX
      have hnm : d ∉ rest := (List.nodup_cons.mp hnd).1
      rw [ih _ (by rw [addRev, modifyIdx_length]; exact hX) (List.nodup_cons.mp hnd).2]
      rw [revAt_addRev_eq p d dep hX]
      simp [hnm]
    · rw [ih _ (by rw [addRev, modifyIdx_length]; exact hX) (List.nodup_cons.mp hnd).2]
      rw [revAt_addRev_ne p d X dep hdX]
      have hiff : (X ∈ d :: rest) ↔ (X ∈ rest) := by
        constructor
        · intro hx
          rcases List.mem_cons.mp hx with heq | hx2
          · exact absurd heq.symm hdX
          · exact hx2
        · exact fun hx => List.mem_cons_of_mem _ hx
      simp only [hiff]

theorem revAt_fillRevLoop (mods : List (String × Nat)) (p : List ModuleB) (X : Nat)
    (hX : X < p.length) (hnd : ∀ e ∈ mods, (depsAt p e.2).Nodup) :
    revAt (fillRevLoop p mods) X =
      revAt p X ++ (mods.filter (fun e => X ∈ depsAt p e.2)).map (fun e => e.2) := by
  induction mods generalizing p with
  | nil => simp [fillRevLoop]
  | cons e rest ih =>
    rw [fillRevLoop]
    have hlen : (fillRevDeps e.2 p (depsAt p e.2)).length = p.length :=
      fillRevDeps_length _ _ _
    have hdstab : ∀ j, depsAt (fillRevDeps e.2 p (depsAt p e.2)) j = depsAt p j :=
      fun j => depsAt_fillRevDeps _ _ _ _
    have hrec := ih (fillRevDeps e.2 p (depsAt p e.2)) (by rw [hlen]; exact hX)
      (fun e2 he2 => by rw [hdstab]; exact hnd e2 (List.mem_cons_of_mem _ he2))
    rw [hrec, revAt_fillRevDeps e.2 (depsAt p e.2) p X hX (hnd e (List.mem_cons_self _ _))]
    have hfe : rest.filter (fun e2 => X ∈ depsAt (fillRevDeps e.2 p (depsAt p e.2)) e2.2) =
        rest.filter (fun e2 => X ∈ depsAt p e2.2) :=
      List.filter_congr (fun e2 _ => by rw [hdstab])
    rw [hfe, List.filter_cons]
    by_cases hmem : X ∈ depsAt p e.2
    · simp [hmem]
    · simp [hmem]

theorem revAt_clearRevLoop_keep (mods : List (String × Nat)) (p : List ModuleB) (X : Nat)
    (h : revAt p X = []) : revAt (clearRevLoop p mods) X = [] := by
  induction mods generalizing p with
  | nil => exact h
  | cons e rest ih =>
    rw [clearRevLoop]
    apply ih
    by_cases he : e.2 = X
    · subst he
      rw [revAt, getElem?_modifyIdx_eq]
      cases p[e.2]? with
      | none => rfl
      | some mo => rfl
    · unfold revAt at h ⊢
      rw [getElem?_modifyIdx_ne p e.2 X _ he]
      exact h

theorem revAt_clearRevLoop_mem (mods : List (String × Nat)) (p : List ModuleB) (X : Nat)
    (hmem : X ∈ mods.map (fun e => e.2)) : revAt (clearRevLoop p mods) X = [] := by
  induction mods generalizing p with
  | nil => cases hmem
  | cons e rest ih =>
    rw [clearRevLoop]
    rcases List.mem_map.mp hmem with ⟨e2, he2, heq⟩
    rcases List.mem_cons.mp he2 with rfl | hrest
    · apply revAt_clearRevLoop_keep
      rw [← heq, revAt, getElem?_modifyIdx_eq]
      cases p[e2.2]? with
      | none => rfl
      | some mo => rfl
    · exact ih _ (List.mem_map.mpr ⟨e2, hrest, heq⟩)

/-- Claim C8: after the reverse-dependency rebuild, the reverse-dependency
list of a module `X` consists of exactly the registered modules that list
`X` among their dependency edges, in registration order, followed by the
select-all module when it depends on `X`; and the "required by" lines
emitted before the module in the raw-value rendering are exactly one line
per entry of that list, in the same order. -/
theorem c8_reverse_deps (st : MCState) (X : Nat)
    (hXv : X < st.pool.length)
    (hXc : X ∈ st.modules.map (fun e => e.2) ∨ X = 0)
    (hnd : ∀ e ∈ st.modules, (depsAt st.pool e.2).Nodup)
    (h0nd : (depsAt st.pool 0).Nodup) :
    revAt (create_reverse_deps st).pool X =
      (st.modules.filter (fun e => X ∈ depsAt st.pool e.2)).map (fun e => e.2) ++
        (if X ∈ depsAt st.pool 0 then [0] else []) ∧
    (∀ mod, (create_reverse_deps st).pool[X]? = some mod →
      ¬(mod.assignments.length = 0 ∧ mod.assertions.length = 0) →
      (mod.rev_deps.map
          (fun d => "# required by " ++ nameOfB (create_reverse_deps st).pool d ++ "\n")).IsPrefix
        (write_module (create_reverse_deps st).pool mod)) := by
  have hstab1 : ∀ j, depsAt (clearRevLoop st.pool st.modules) j = depsAt st.pool j :=
    fun j => depsAt_clearRevLoop _ _ _
  set p1 := clearRevLoop st.pool st.modules with hp1
  set p2 := modifyIdx p1 0 (fun mo => { mo with rev_deps := [] }) with hp2
  set p3 := fillRevLoop p2 st.modules with hp3
  set p4 := fillRevDeps 0 p3 (depsAt p3 0) with hp4
  have hstab2 : ∀ j, depsAt p2 j = depsAt st.pool j := fun j => by
    rw [hp2,
      depsAt_modifyIdx p1 0 j (fun mo => { mo with rev_deps := [] }) (fun mo => rfl)]
    exact hstab1 j
  have hstab3 : ∀ j, depsAt p3 j = depsAt st.pool j := fun j => by
    rw [hp3, depsAt_fillRevLoop]
    exact hstab2 j
  have hlen2 : p2.length = st.pool.length := by
    rw [hp2, modifyIdx_length, hp1, clearRevLoop_length]
  have hlen3 : p3.length = st.pool.length := by
    rw [hp3, fillRevLoop_length]
    exact hlen2
  have hrev2 : revAt p2 X = [] := by
    rcases hXc with hmem | rfl
    · have h1 : revAt p1 X = [] := revAt_clearRevLoop_mem _ _ _ hmem
      by_cases h0X : (0 : Nat) = X
      · subst h0X
        rw [hp2, revAt, getElem?_modifyIdx_eq]
        cases p1[0]? with
        | none => rfl
        | some mo => rfl
      · rw [hp2, revAt, getElem?_modifyIdx_ne _ _ _ _ h0X]
        exact h1
    · rw [hp2, revAt, getElem?_modifyIdx_eq]
      cases p1[0]? with
      | none => rfl
      | some mo => rfl
  have hrev3 : revAt p3 X =
      (st.modules.filter (fun e => X ∈ depsAt st.pool e.2)).map (fun e => e.2) := by
    rw [hp3, revAt_fillRevLoop st.modules p2 X (by rw [hlen2]; exact hXv)
      (fun e he => by rw [hstab2]; exact hnd e he)]
    rw [hrev2]
    have : st.modules.filter (fun e => X ∈ depsAt p2 e.2) =
        st.modules.filter (fun e => X ∈ depsAt st.pool e.2) :=
      List.filter_congr (fun e _ => by rw [hstab2])
    rw [this]
    simp
  have hrev4 : revAt p4 X =
      (st.modules.filter (fun e => X ∈ depsAt st.pool e.2)).map (fun e => e.2) ++
        (if X ∈ depsAt st.pool 0 then [0] else []) := by
    rw [hp4, revAt_fillRevDeps 0 (depsAt p3 0) p3 X (by rw [hlen3]; exact hXv)
      (by rw [hstab3]; exact h0nd)]
    rw [hrev3, hstab3]
  have hpool : (create_reverse_deps st).pool = p4 := by
    rw [hp4, hp3, hp2, hp1]
    rfl
  rw [hpool]
  refine ⟨hrev4, ?_⟩
  intro mod hmod hne
  unfold write_module
  rw [if_neg hne]
  exact ⟨["# module " ++ mod.name ++ "\n"] ++
      mod.assignments.map (fun av => assignLine av.1 av.2) ++ mod.assertions.map assertLine,
    by simp [List.append_assoc]⟩

/-- A small builder state: select-all depends on module 1, module 1
depends on module 2; module 1 carries a stale reverse-dependency entry
that the rebuild must clear. -/
def st8 : MCState :=
  ⟨[⟨"module_select_all", [1], [], [], []⟩,
    ⟨"m1", [2], [("A", "y")], [], [99]⟩,
    ⟨"m2", [], [("B", "y")], [], []⟩],
   [("m1", 1), ("m2", 2)],
   []⟩

/-! ## Claim C5 -/

/-- Pool indices of the modules entered (visited for the first time) in a
trace, in order. -/
def entersOf (tr : List Ev) : List Nat :=
  tr.filterMap (fun e => match e.ph with | .enter => some e.mid | _ => none)

def nameOfM (pool : List ModuleV) (i : Nat) : String :=
  ((pool[i]?).map (fun m => m.name)).getD ""

def moduleAtV (pool : List ModuleV) (i : Nat) : ModuleV :=
  (pool[i]?).getD ⟨"", [], [], [], []⟩

def depsOfV (pool : List ModuleV) (i : Nat) : List Nat := (moduleAtV pool i).deps

def phIsEnter : Phase → Bool
  | .enter => true
  | _ => false

def phIsAssert : Phase → Bool
  | .assertOk _ _ => true
  | _ => false

/-- Body events of module `i`: everything it logs except its `enter`. -/
def isBodyB (i : Nat) (e : Ev) : Bool := (e.mid == i) && !(phIsEnter e.ph)

/-- Replay one trace event against the oracle: exactly the state change
the engine performed at that event. -/
def applyEv {σ : Type} (O : Oracle σ) (kc : σ) (e : Ev) : σ :=
  match e.ph with
  | .mergeF f => O.merge kc f
  | .assignSet s v => (O.set_value kc s v).2
  | _ => kc

def replay {σ : Type} (O : Oracle σ) (σ0 : σ) (tr : List Ev) : σ :=
  tr.foldl (applyEv O) σ0

/-- Every assertion event in the trace was checked against exactly the
oracle state obtained by replaying the events before it — so an assertion
observes all earlier assignments and merges (its own module's and its
dependencies') and nothing that comes later. -/
def AssertsSeePrefix {σ : Type} (O : Oracle σ) (σ0 : σ) (tr : List Ev) : Prop :=
  ∀ (k i : Nat) (s v : String), tr[k]? = some ⟨i, .assertOk s v⟩ →
    O.str_value (replay O σ0 (tr.take k)) s = v

/-- Every `P` event strictly precedes every `Q` event in the trace. -/
def allBefore (tr : List Ev) (P Q : Ev → Prop) : Prop :=
  ∀ (k1 k2 : Nat) (e1 e2 : Ev), tr[k1]? = some e1 → tr[k2]? = some e2 →
    P e1 → Q e2 → k1 < k2

/-- Module graph for the C5 counterexample: the root depends on two
distinct module objects that share the name "a"; the second one carries
an assignment. -/
def c5pool : List ModuleV :=
  [⟨"root", [1, 2], [], [], []⟩,
   ⟨"a", [], [], [], []⟩,
   ⟨"a", [], [], [("X", "y")], []⟩]

/-- Claim C5 as stated is false in its "memoized by identity" part: the
traversal memoizes visits by module *name* (`visited.add(module.name)`),
so the second of two distinct module objects sharing one name is never
visited — its assignment is not applied (the run ends with no changes),
whereas identity-based memoization would have visited it and set X. -/
theorem c5_counterexample :
    isOkE (runConfig KO c5pool [] 10 0) = true ∧
    changesOfE (runConfig KO c5pool [] 10 0) = [] ∧
    c5pool.get ⟨1, by decide⟩ ≠ c5pool.get ⟨2, by decide⟩ ∧
    (c5pool.get ⟨1, by decide⟩).name = (c5pool.get ⟨2, by decide⟩).name ∧
    ("X", "y") ∈ (c5pool.get ⟨2, by decide⟩).assignments := by
  refine ⟨rfl, rfl, ?_, ?_, ?_⟩ <;> decide

theorem getElemAppendLt {α : Type} (a b : List α) (k : Nat) (h : k < a.length) :
    (a ++ b)[k]? = a[k]? := by
  rw [List.getElem?_append]
  simp [h]

theorem replay_append {σ : Type} (O : Oracle σ) (σ0 : σ) (a b : List Ev) :
    replay O σ0 (a ++ b) = replay O (replay O σ0 a) b :=
  List.foldl_append _ _ _ _

theorem AV_append {σ : Type} (O : Oracle σ) (σ0 : σ) (a b : List Ev)
    (ha : AssertsSeePrefix O σ0 a) (hb : AssertsSeePrefix O (replay O σ0 a) b) :
    AssertsSeePrefix O σ0 (a ++ b) := by
  intro k i s v hk
  by_cases hlt : k < a.length
  · rw [getElemAppendLt _ _ _ hlt] at hk
    rw [List.take_append_of_le_length (Nat.le_of_lt hlt)]
    exact ha k i s v hk
  · have hge : a.length ≤ k := Nat.le_of_not_lt hlt
    rw [List.getElem?_append_right hge] at hk
    have htake : (a ++ b).take k = a ++ b.take (k - a.length) := by
      rw [List.take_append_eq_append_take]
      congr 1
      exact List.take_of_length_le (by omega)
    rw [htake, replay_append]
    exact hb (k - a.length) i s v hk

theorem AV_of_no_asserts {σ : Type} (O : Oracle σ) (σ0 : σ) (Δ : List Ev)
    (h : ∀ e ∈ Δ, phIsAssert e.ph = false) : AssertsSeePrefix O σ0 Δ := by
  intro k i s v hk
  have hmem : (⟨i, .assertOk s v⟩ : Ev) ∈ Δ := List.getElem?_mem hk
  have := h _ hmem
  simp [phIsAssert] at this

theorem allBefore_append_noP (tr ext : List Ev) (P Q : Ev → Prop)
    (h : allBefore tr P Q) (hP : ∀ e ∈ ext, ¬P e) : allBefore (tr ++ ext) P Q := by
  intro k1 k2 e1 e2 h1 h2 hp hq
  by_cases hk2 : k2 < tr.length
  · rw [getElemAppendLt _ _ _ hk2] at h2
    by_cases hk1 : k1 < tr.length
    · rw [getElemAppendLt _ _ _ hk1] at h1
      exact h k1 k2 e1 e2 h1 h2 hp hq
    · rw [List.getElem?_append_right (Nat.le_of_not_lt hk1)] at h1
      exact absurd hp (hP e1 (List.getElem?_mem h1))
  · by_cases hk1 : k1 < tr.length
    · omega
    · rw [List.getElem?_append_right (Nat.le_of_not_lt hk1)] at h1
      exact absurd hp (hP e1 (List.getElem?_mem h1))

theorem allBefore_parts (a b : List Ev) (P Q : Ev → Prop)
    (hQ : ∀ e ∈ a, ¬Q e) (hP : ∀ e ∈ b, ¬P e) : allBefore (a ++ b) P Q := by
  intro k1 k2 e1 e2 h1 h2 hp hq
  by_cases hk1 : k1 < a.length
  · by_cases hk2 : k2 < a.length
    · rw [getElemAppendLt _ _ _ hk2] at h2
      exact absurd hq (hQ e2 (List.getElem?_mem h2))
    · omega
  · rw [List.getElem?_append_right (Nat.le_of_not_lt hk1)] at h1
    exact absurd hp (hP e1 (List.getElem?_mem h1))

theorem applyMerges_spec {σ : Type} (O : Oracle σ) (mid : Nat) :
    ∀ (fs : List String) (st : EngSt σ),
    (applyMerges O mid st fs).trace =
      st.trace ++ fs.map (fun f => (⟨mid, .mergeF f⟩ : Ev)) ∧
    (applyMerges O mid st fs).visited = st.visited ∧
    (applyMerges O mid st fs).kc =
      replay O st.kc (fs.map (fun f => (⟨mid, .mergeF f⟩ : Ev))) := by
  intro fs
  induction fs with
  | nil => exact fun st => ⟨by simp [applyMerges], rfl, rfl⟩
  | cons f rest ih =>
    intro st
    obtain ⟨h1, h2, h3⟩ := ih
      { st with kc := O.merge st.kc f, trace := st.trace ++ [⟨mid, .mergeF f⟩] }
    refine ⟨?_, ?_, ?_⟩
    · rw [applyMerges, h1]
      simp [List.append_assoc]
    · rw [applyMerges, h2]
    · rw [applyMerges, h3]
      show replay O (O.merge st.kc f) _ = _
      rw [List.map_cons, show (O.merge st.kc f) = replay O st.kc [⟨mid, .mergeF f⟩] from rfl,
        ← replay_append]
      rfl

theorem applyAssertsE_spec {σ : Type} (O : Oracle σ) (mid : Nat) :
    ∀ (xs : List (String × String)) (st st1 : EngSt σ),
    applyAssertsE O mid st xs = .ok st1 →
    st1.trace = st.trace ++ xs.map (fun x => (⟨mid, .assertOk x.1 x.2⟩ : Ev)) ∧
    st1.visited = st.visited ∧ st1.kc = st.kc ∧
    (∀ x ∈ xs, O.str_value st.kc x.1 = x.2) := by
  intro xs
  induction xs with
  | nil =>
    intro st st1 h
    cases h
    exact ⟨by simp [applyAssertsE], rfl, rfl, by intro x hx; cases hx⟩
  | cons x rest ih =>
    intro st st1 h
    obtain ⟨s, v⟩ := x
    unfold applyAssertsE at h
    by_cases hcond : O.str_value st.kc s ≠ v
    · rw [show assert_symbol O st s v = .error (assertMsg s v (O.str_value st.kc s)) from by
        unfold assert_symbol; rw [if_pos hcond]] at h
      cases h
    · rw [show assert_symbol O st s v = .ok () from by
        unfold assert_symbol; rw [if_neg hcond]] at h
      obtain ⟨h1, h2, h3, h4⟩ := ih { st with trace := st.trace ++ [⟨mid, .assertOk s v⟩] } st1 h
      refine ⟨by rw [h1]; simp [List.append_assoc], h2, h3, ?_⟩
      intro x2 hx2
      rcases List.mem_cons.mp hx2 with heq | hmem
      · rw [heq]
        exact Not.imp_symm (fun hne => hne) hcond
      · exact h4 x2 hmem

theorem applyAssignsE_spec {σ : Type} (O : Oracle σ) (mid : Nat) :
    ∀ (xs : List (String × String)) (st st1 : EngSt σ),
    applyAssignsE O mid st xs = .ok st1 →
    ∃ evs, st1.trace = st.trace ++ evs ∧
      st1.visited = st.visited ∧
      st1.kc = replay O st.kc evs ∧
      List.Forall₂ (fun (ev : Ev) (x : String × String) =>
        ev.mid = mid ∧
        (ev.ph = Phase.assignSet x.1 x.2 ∨ ev.ph = Phase.assignSkip x.1 x.2)) evs xs := by
  intro xs
  induction xs with
  | nil =>
    intro st st1 h
    cases h
    exact ⟨[], by simp [applyAssignsE], rfl, rfl, List.Forall₂.nil⟩
  | cons x rest ih =>
    intro st st1 h
    obtain ⟨s, v⟩ := x
    unfold applyAssignsE at h
    revert h
    cases hl : lookupA st.changes s with
    | some prev =>
      by_cases hne : prev.2 ≠ v
      · rw [show set_symbol O st s v = .error (conflictMsg s prev.2 v) from by
          unfold set_symbol; rw [hl]; dsimp only; rw [if_pos hne]]
        intro h
        cases h
      · rw [show set_symbol O st s v = .ok st from by
          unfold set_symbol; rw [hl]; dsimp only; rw [if_neg hne]]
        intro h
        dsimp only at h
        obtain ⟨evs1, h1, h2, h3, h4⟩ :=
          ih { st with trace := st.trace ++ [⟨mid, .assignSkip s v⟩] } st1 h
        refine ⟨⟨mid, .assignSkip s v⟩ :: evs1, ?_, h2, ?_, ?_⟩
        · rw [h1]
          simp [List.append_assoc]
        · rw [h3]
          rfl
        · exact List.Forall₂.cons ⟨rfl, Or.inr rfl⟩ h4
    | none =>
      by_cases hb : (O.set_value st.kc s v).1 = false
      · rw [show set_symbol O st s v = .error (invalidMsg v s) from by
          unfold set_symbol; rw [hl]; dsimp only; rw [if_pos hb]]
        intro h
        cases h
      · rw [show set_symbol O st s v = .ok { st with
            kc := (O.set_value st.kc s v).2,
            warnings := if O.str_value (O.set_value st.kc s v).2 s ≠ v then
                st.warnings ++ [warnMsg s (O.str_value (O.set_value st.kc s v).2 s) v]
              else st.warnings,
            changes := if O.str_value st.kc s ≠ O.str_value (O.set_value st.kc s v).2 s then
                st.changes ++ [(s, O.str_value st.kc s, O.str_value (O.set_value st.kc s v).2 s)]
              else st.changes } from by
          unfold set_symbol; rw [hl]; dsimp only; rw [if_neg hb]]
        intro h
        dsimp only at h
        obtain ⟨evs1, h1, h2, h3, h4⟩ := ih _ st1 h
        refine ⟨⟨mid, .assignSet s v⟩ :: evs1, ?_, h2, ?_, ?_⟩
        · rw [h1]
          simp [List.append_assoc]
        · rw [h3]
          rfl
        · exact List.Forall₂.cons ⟨rfl, Or.inl rfl⟩ h4

theorem entersOf_append (a b : List Ev) : entersOf (a ++ b) = entersOf a ++ entersOf b :=
  List.filterMap_append a b _

theorem entersOf_cons_enter (i : Nat) (l : List Ev) :
    entersOf (⟨i, .enter⟩ :: l) = i :: entersOf l := rfl

theorem entersOf_of_no_enters (l : List Ev) (h : ∀ e ∈ l, phIsEnter e.ph = false) :
    entersOf l = [] := by
  rw [entersOf, List.filterMap_eq_nil_iff]
  intro e he
  have hf := h e he
  cases hph : e.ph with
  | enter => rw [hph] at hf; simp [phIsEnter] at hf
  | mergeF f => rfl
  | assignSet a b => rfl
  | assignSkip a b => rfl
  | assertOk a b => rfl

theorem entersOf_merge_map (mid : Nat) (fs : List String) :
    entersOf (fs.map (fun f => (⟨mid, .mergeF f⟩ : Ev))) = [] := by
  apply entersOf_of_no_enters
  intro e he
  rcases List.mem_map.mp he with ⟨f, _, rfl⟩
  rfl

theorem entersOf_assert_map (mid : Nat) (xs : List (String × String)) :
    entersOf (xs.map (fun x => (⟨mid, .assertOk x.1 x.2⟩ : Ev))) = [] := by
  apply entersOf_of_no_enters
  intro e he
  rcases List.mem_map.mp he with ⟨x, _, rfl⟩
  rfl

theorem Forall2_mem_left {α β : Type} {R : α → β → Prop} {l1 : List α} {l2 : List β}
    (h : List.Forall₂ R l1 l2) : ∀ a ∈ l1, ∃ b, R a b := by
  induction h with
  | nil => intro a ha; cases ha
  | cons hr _ ih =>
    intro a ha
    rcases List.mem_cons.mp ha with rfl | hmem
    · exact ⟨_, hr⟩
    · exact ih a hmem

/-- Events produced by the assignment loop: tagged with the module, and
neither enter nor assert events. -/
theorem assign_evs_props {mid : Nat} {evs : List Ev} {xs : List (String × String)}
    (h : List.Forall₂ (fun (ev : Ev) (x : String × String) =>
      ev.mid = mid ∧
      (ev.ph = Phase.assignSet x.1 x.2 ∨ ev.ph = Phase.assignSkip x.1 x.2)) evs xs) :
    ∀ e ∈ evs, e.mid = mid ∧ phIsEnter e.ph = false ∧ phIsAssert e.ph = false := by
  intro e he
  rcases Forall2_mem_left h e he with ⟨x, hmid, hph | hph⟩ <;>
    exact ⟨hmid, by rw [hph]; exact ⟨rfl, rfl⟩⟩

theorem replay_assert_map {σ : Type} (O : Oracle σ) (kc0 : σ) (mid : Nat)
    (xs : List (String × String)) :
    replay O kc0 (xs.map (fun x => (⟨mid, .assertOk x.1 x.2⟩ : Ev))) = kc0 := by
  induction xs generalizing kc0 with
  | nil => rfl
  | cons x rest ih => exact ih kc0

theorem AV_assert_map {σ : Type} (O : Oracle σ) (kc0 : σ) (mid : Nat)
    (xs : List (String × String)) (h : ∀ x ∈ xs, O.str_value kc0 x.1 = x.2) :
    AssertsSeePrefix O kc0 (xs.map (fun x => (⟨mid, .assertOk x.1 x.2⟩ : Ev))) := by
  intro k i s v hk
  rw [List.getElem?_map] at hk
  cases hx : xs[k]? with
  | none => rw [hx] at hk; cases hk
  | some x =>
    rw [hx] at hk
    have hxe : (⟨mid, .assertOk x.1 x.2⟩ : Ev) = ⟨i, .assertOk s v⟩ := by
      injection hk
    have hx1 : x.1 = s := by
      injection hxe with h1 h2
      injection h2 with h3 h4
    have hx2 : x.2 = v := by
      injection hxe with h1 h2
      injection h2 with h3 h4
    rw [← List.map_take, replay_assert_map]
    rw [← hx1, ← hx2]
    exact h x (List.getElem?_mem hx)

theorem nodup_append_single (l : List String) (a : String) (hn : l.Nodup) (hm : a ∉ l) :
    (l ++ [a]).Nodup := by
  simp [List.nodup_append, hn, hm]

theorem visitD_spec {σ : Type} (O : Oracle σ) (pool : List ModuleV) :
    ∀ (fuel : Nat) (st : EngSt σ) (ws : List Nat) (st1 : EngSt σ),
    visitD O pool fuel st ws = .ok st1 →
    ∃ Δ, st1.trace = st.trace ++ Δ ∧
      st1.visited = st.visited ++ (entersOf Δ).map (nameOfM pool) ∧
      (∀ n ∈ (entersOf Δ).map (nameOfM pool), n ∉ st.visited) ∧
      (st.visited.Nodup → st1.visited.Nodup) ∧
      (∀ e ∈ Δ, e.mid ∈ entersOf Δ ∧ e.mid < pool.length) ∧
      st1.kc = replay O st.kc Δ ∧
      AssertsSeePrefix O st.kc Δ ∧
      (∀ i ∈ ws, nameOfM pool i ∈ st1.visited ∧ i < pool.length) := by
  intro fuel
  induction fuel with
  | zero => intro st ws st1 h; cases h
  | succ fuel ih =>
    intro st ws st1 h
    match ws with
    | [] =>
      cases h
      exact ⟨[], by simp, by simp [entersOf], by simp [entersOf],
        fun hn => hn, (by intro e he; cases he), rfl,
        (by intro k i s v hk; cases hk), (by intro i hi; cases hi)⟩
    | i :: rest =>
      unfold visitD at h
      cases hpm : pool[i]? with
      | none => rw [hpm] at h; cases h
      | some m =>
        rw [hpm] at h
        dsimp only at h
        have hiv : i < pool.length := by
          rw [List.getElem?_eq_some] at hpm
          exact hpm.1
        have hname : nameOfM pool i = m.name := by
          rw [nameOfM, hpm]
          rfl
        by_cases hv : st.visited.contains m.name
        · rw [if_pos hv] at h
          obtain ⟨Δ, h1, h2, h3, h4, h5, h6, h7, h8⟩ := ih st rest st1 h
          refine ⟨Δ, h1, h2, h3, h4, h5, h6, h7, ?_⟩
          intro j hj
          rcases List.mem_cons.mp hj with rfl | hmem
          · refine ⟨?_, hiv⟩
            rw [hname, h2]
            exact List.mem_append_left _ (by simpa using hv)
          · exact h8 j hmem
        · rw [if_neg hv] at h
          have hvnm : m.name ∉ st.visited := by simpa using hv
          cases hdeps : visitD O pool fuel
              { st with visited := st.visited ++ [m.name],
                        trace := st.trace ++ [⟨i, .enter⟩] } m.deps with
          | error e => rw [hdeps] at h; cases h
          | ok st2 =>
            rw [hdeps] at h
            dsimp only at h
            cases hasg : applyAssignsE O i (applyMerges O i st2 m.merge_kconf_files)
                m.assignments with
            | error msg => rw [hasg] at h; cases h
            | ok st4 =>
              rw [hasg] at h
              dsimp only at h
              cases hass : applyAssertsE O i st4 m.assertions with
              | error msg => rw [hass] at h; cases h
              | ok st5 =>
                rw [hass] at h
                dsimp only at h
                obtain ⟨Δd, d1, d2, d3, d4, d5, d6, d7, d8⟩ := ih _ m.deps st2 hdeps
                obtain ⟨m1, m2, m3⟩ := applyMerges_spec O i m.merge_kconf_files st2
                obtain ⟨evs, a1, a2, a3, a4⟩ :=
                  applyAssignsE_spec O i m.assignments _ st4 hasg
                obtain ⟨z1, z2, z3, z4⟩ := applyAssertsE_spec O i m.assertions st4 st5 hass
                obtain ⟨Δr, r1, r2, r3, r4, r5, r6, r7, r8⟩ := ih st5 rest st1 h
                set Δm := m.merge_kconf_files.map (fun f => (⟨i, .mergeF f⟩ : Ev)) with hΔm
                set Δz := m.assertions.map (fun x => (⟨i, .assertOk x.1 x.2⟩ : Ev)) with hΔz
                have hevs := assign_evs_props a4
                refine ⟨⟨i, .enter⟩ :: (Δd ++ (Δm ++ (evs ++ (Δz ++ Δr)))), ?_, ?_, ?_, ?_,
                  ?_, ?_, ?_, ?_⟩
                · rw [r1, z1, a1, m1, d1]
                  simp [List.append_assoc]
                · rw [r2, z2, a2, m2, d2]
                  rw [entersOf_cons_enter, entersOf_append, entersOf_append,
                    entersOf_append, entersOf_append, entersOf_merge_map,
                    entersOf_assert_map, entersOf_of_no_enters evs (fun e he => (hevs e he).2.1)]
                  simp [hname, List.append_assoc]
                · intro n hn
                  rw [entersOf_cons_enter, entersOf_append, entersOf_append,
                    entersOf_append, entersOf_append, entersOf_merge_map,
                    entersOf_assert_map,
                    entersOf_of_no_enters evs (fun e he => (hevs e he).2.1)] at hn
                  simp only [List.append_nil, List.nil_append, List.map_cons,
                    List.map_append, List.mem_cons, List.mem_append] at hn
                  rcases hn with rfl | hnd | hnr
                  · rw [hname]
                    exact hvnm
                  · intro hmem
                    exact d3 n hnd (List.mem_append_left _ hmem)
                  · intro hmem
                    apply r3 n hnr
                    rw [z2, a2, m2, d2]
                    exact List.mem_append_left _ (List.mem_append_left _ hmem)
                · intro hnd0
                  have hstm : (st.visited ++ [m.name]).Nodup := nodup_append_single _ _ hnd0 hvnm
                  have h2n : st2.visited.Nodup := d4 hstm
                  apply r4
                  rw [z2, a2, m2]
                  exact h2n
                · intro e he
                  rw [entersOf_cons_enter, entersOf_append, entersOf_append,
                    entersOf_append, entersOf_append, entersOf_merge_map,
                    entersOf_assert_map,
                    entersOf_of_no_enters evs (fun e2 he2 => (hevs e2 he2).2.1)]
                  simp only [List.append_nil, List.nil_append]
                  rcases List.mem_cons.mp he with rfl | he2
                  · exact ⟨List.mem_cons_self _ _, hiv⟩
                  rcases List.mem_append.mp he2 with hed | he3
                  · obtain ⟨hin, hval⟩ := d5 e hed
                    exact ⟨List.mem_cons_of_mem _ (List.mem_append_left _ hin), hval⟩
                  rcases List.mem_append.mp he3 with hem | he4
                  · rcases List.mem_map.mp hem with ⟨f, _, rfl⟩
                    exact ⟨List.mem_cons_self _ _, hiv⟩
                  rcases List.mem_append.mp he4 with hea | he5
                  · rw [(hevs e hea).1]
                    exact ⟨List.mem_cons_self _ _, hiv⟩
                  rcases List.mem_append.mp he5 with hez | her
                  · rcases List.mem_map.mp hez with ⟨x, _, rfl⟩
                    exact ⟨List.mem_cons_self _ _, hiv⟩
                  · obtain ⟨hin, hval⟩ := r5 e her
                    exact ⟨List.mem_cons_of_mem _ (List.mem_append_right _ hin), hval⟩
                · rw [r6, z3, a3, m3, d6]
                  show _ = replay O st.kc ([⟨i, .enter⟩] ++ (Δd ++ (Δm ++ (evs ++ (Δz ++ Δr)))))
                  rw [replay_append, replay_append, replay_append, replay_append,
                    replay_append]
                  rw [hΔz, replay_assert_map]
                  rfl
                · show AssertsSeePrefix O st.kc ([⟨i, .enter⟩] ++ (Δd ++ (Δm ++ (evs ++ (Δz ++ Δr)))))
                  apply AV_append
                  · exact AV_of_no_asserts _ _ _ (by intro e he; rcases List.mem_singleton.mp he with rfl; rfl)
                  apply AV_append
                  · show AssertsSeePrefix O (replay O st.kc [⟨i, .enter⟩]) Δd
                    exact d7
                  apply AV_append
                  · exact AV_of_no_asserts _ _ _ (by
                      intro e he
                      rcases List.mem_map.mp he with ⟨f, _, rfl⟩
                      rfl)
                  apply AV_append
                  · exact AV_of_no_asserts _ _ _ (fun e he => (hevs e he).2.2)
                  apply AV_append
                  · have hkc4 : replay O (replay O (replay O (replay O st.kc [⟨i, .enter⟩]) Δd) Δm) evs = st4.kc := by
                      rw [a3, m3, d6]
                      rfl
                    rw [hkc4]
                    exact AV_assert_map O st4.kc i m.assertions z4
                  · have hkc5 : replay O (replay O (replay O (replay O (replay O st.kc [⟨i, .enter⟩]) Δd) Δm) evs) Δz = st5.kc := by
                      rw [hΔz, replay_assert_map, z3, a3, m3, d6]
                      rfl
                    rw [hkc5]
                    exact r7
                · intro j hj
                  rcases List.mem_cons.mp hj with rfl | hmem
                  · refine ⟨?_, hiv⟩
                    rw [hname, r2, z2, a2, m2, d2]
                    exact List.mem_append_left _ (List.mem_append_left _
                      (List.mem_append_right _ (List.mem_singleton.mpr rfl)))
                  · exact r8 j hmem

/-- Invariant: every event already in the trace belongs to a module whose
name has been visited, and references a valid pool index. -/
def Hist {σ : Type} (pool : List ModuleV) (st : EngSt σ) : Prop :=
  ∀ e ∈ st.trace, nameOfM pool e.mid ∈ st.visited ∧ e.mid < pool.length

theorem visitD_hist {σ : Type} {O : Oracle σ} {pool : List ModuleV} {fuel : Nat}
    {st : EngSt σ} {ws : List Nat} {st1 : EngSt σ}
    (h : visitD O pool fuel st ws = .ok st1) (hh : Hist pool st) : Hist pool st1 := by
  obtain ⟨Δ, h1, h2, _, _, h5, _, _, _⟩ := visitD_spec O pool fuel st ws st1 h
  intro e he
  rw [h1] at he
  rcases List.mem_append.mp he with hin | hin
  · obtain ⟨hn, hvq⟩ := hh e hin
    refine ⟨?_, hvq⟩
    rw [h2]
    exact List.mem_append_left _ hn
  · obtain ⟨hin2, hvq⟩ := h5 e hin
    refine ⟨?_, hvq⟩
    rw [h2]
    exact List.mem_append_right _ (List.mem_map_of_mem _ hin2)

theorem isBodyB_false_of_ne {j : Nat} {e : Ev} (h : e.mid ≠ j) : isBodyB j e = false := by
  simp [isBodyB, h]

theorem visitD_order {σ : Type} (O : Oracle σ) (pool : List ModuleV) (rank : Nat → Nat)
    (hrank : ∀ a, ∀ b ∈ depsOfV pool a, rank b < rank a) :
    ∀ (fuel : Nat) (st : EngSt σ) (ws : List Nat) (st1 : EngSt σ),
    visitD O pool fuel st ws = .ok st1 →
    Hist pool st →
    ∀ Δ : List Ev, st1.trace = st.trace ++ Δ →
    ∀ j ∈ entersOf Δ,
      (∃ i0 ∈ ws, rank j ≤ rank i0) ∧
      (∀ d ∈ depsOfV pool j,
        nameOfM pool d ∈ st1.visited ∧ d < pool.length ∧
        allBefore st1.trace (fun e => e.mid = d)
          (fun e => e.mid = j ∧ e.ph ≠ Phase.enter)) ∧
      (∃ asEvs, st1.trace.filter (isBodyB j) =
        (moduleAtV pool j).merge_kconf_files.map (fun f => (⟨j, .mergeF f⟩ : Ev)) ++
          (asEvs ++
          (moduleAtV pool j).assertions.map (fun x => (⟨j, .assertOk x.1 x.2⟩ : Ev))) ∧
        List.Forall₂ (fun (ev : Ev) (x : String × String) =>
          ev.mid = j ∧ (ev.ph = Phase.assignSet x.1 x.2 ∨ ev.ph = Phase.assignSkip x.1 x.2))
          asEvs (moduleAtV pool j).assignments) := by
  intro fuel
  induction fuel with
  | zero => intro st ws st1 h; cases h
  | succ fuel ih =>
    intro st ws st1 h hh Δ hΔ
    match ws with
    | [] =>
      cases h
      have hnil : Δ = [] := List.append_right_eq_self.mp hΔ.symm
      subst hnil
      intro j hj
      cases hj
    | i :: rest =>
      unfold visitD at h
      cases hpm : pool[i]? with
      | none => rw [hpm] at h; cases h
      | some m =>
        rw [hpm] at h
        dsimp only at h
        have hiv : i < pool.length := by
          rw [List.getElem?_eq_some] at hpm
          exact hpm.1
        have hname : nameOfM pool i = m.name := by
          rw [nameOfM, hpm]
          rfl
        have hmAt : moduleAtV pool i = m := by
          rw [moduleAtV, hpm]
          rfl
        by_cases hv : st.visited.contains m.name
        · rw [if_pos hv] at h
          intro j hj
          obtain ⟨⟨i0, hi0, hle⟩, hdep, hbody⟩ := ih st rest st1 h hh Δ hΔ j hj
          exact ⟨⟨i0, List.mem_cons_of_mem _ hi0, hle⟩, hdep, hbody⟩
        · rw [if_neg hv] at h
          have hvnm : m.name ∉ st.visited := by simpa using hv
          cases hdeps : visitD O pool fuel
              { st with visited := st.visited ++ [m.name],
                        trace := st.trace ++ [⟨i, .enter⟩] } m.deps with
          | error e => rw [hdeps] at h; cases h
          | ok st2 =>
            rw [hdeps] at h
            dsimp only at h
            cases hasg : applyAssignsE O i (applyMerges O i st2 m.merge_kconf_files)
                m.assignments with
            | error msg => rw [hasg] at h; cases h
            | ok st4 =>
              rw [hasg] at h
              dsimp only at h
              cases hass : applyAssertsE O i st4 m.assertions with
              | error msg => rw [hass] at h; cases h
              | ok st5 =>
                rw [hass] at h
                dsimp only at h
                obtain ⟨Δd, d1, d2, d3, d4, d5, d6, d7, d8⟩ :=
                  visitD_spec O pool fuel _ m.deps st2 hdeps
                obtain ⟨m1, m2, m3⟩ := applyMerges_spec O i m.merge_kconf_files st2
                obtain ⟨evs, a1, a2, a3, a4⟩ :=
                  applyAssignsE_spec O i m.assignments _ st4 hasg
                obtain ⟨z1, z2, z3, z4⟩ := applyAssertsE_spec O i m.assertions st4 st5 hass
                obtain ⟨Δr, r1, r2, r3, r4, r5, r6, r7, r8⟩ :=
                  visitD_spec O pool fuel st5 rest st1 h
                set Δm := m.merge_kconf_files.map (fun f => (⟨i, .mergeF f⟩ : Ev)) with hΔm
                set Δz := m.assertions.map (fun x => (⟨i, .assertOk x.1 x.2⟩ : Ev)) with hΔz
                have hevs := assign_evs_props a4
                have hm_in_stm : m.name ∈ st.visited ++ [m.name] :=
                  List.mem_append_right _ (List.mem_singleton.mpr rfl)
                have h52 : st5.visited = st2.visited := by rw [z2, a2, m2]
                have h2stm : st2.visited = (st.visited ++ [m.name]) ++
                    (entersOf Δd).map (nameOfM pool) := d2
                have htr1 : st1.trace = st2.trace ++ (Δm ++ (evs ++ (Δz ++ Δr))) := by
                  rw [r1, z1, a1, m1]
                  simp [List.append_assoc]
                have htr2 : st2.trace = (st.trace ++ [⟨i, .enter⟩]) ++ Δd := d1
                have hΔfull : Δ = ⟨i, .enter⟩ :: (Δd ++ (Δm ++ (evs ++ (Δz ++ Δr)))) := by
                  have hcat : st.trace ++ Δ =
                      st.trace ++ (⟨i, .enter⟩ :: (Δd ++ (Δm ++ (evs ++ (Δz ++ Δr))))) := by
                    rw [← hΔ, htr1, htr2]
                    simp [List.append_assoc]
                  exact List.append_cancel_left hcat
                have histm : Hist pool
                    { st with visited := st.visited ++ [m.name],
                              trace := st.trace ++ [⟨i, .enter⟩] } := by
                  intro e he
                  rcases List.mem_append.mp he with hin | hin
                  · obtain ⟨hn, hvq⟩ := hh e hin
                    exact ⟨List.mem_append_left _ hn, hvq⟩
                  · rcases List.mem_singleton.mp hin with rfl
                    exact ⟨by rw [hname]; exact hm_in_stm, hiv⟩
                have hist2 : Hist pool st2 := visitD_hist hdeps histm
                have hist5 : Hist pool st5 := by
                  intro e he
                  rw [z1, a1, m1] at he
                  rcases List.mem_append.mp he with he2 | hez
                  rcases List.mem_append.mp he2 with he3 | hea
                  rcases List.mem_append.mp he3 with he4 | hem
                  · obtain ⟨hn, hvq⟩ := hist2 e he4
                    exact ⟨by rw [h52]; exact hn, hvq⟩
                  · rcases List.mem_map.mp hem with ⟨f, _, rfl⟩
                    refine ⟨?_, hiv⟩
                    rw [h52, h2stm]
                    exact List.mem_append_left _ (by rw [hname]; exact hm_in_stm)
                  · refine ⟨?_, ?_⟩
                    · rw [(hevs e hea).1, h52, h2stm]
                      exact List.mem_append_left _ (by rw [hname]; exact hm_in_stm)
                    · rw [(hevs e hea).1]
                      exact hiv
                  · rcases List.mem_map.mp hez with ⟨x, _, rfl⟩
                    refine ⟨?_, hiv⟩
                    rw [h52, h2stm]
                    exact List.mem_append_left _ (by rw [hname]; exact hm_in_stm)
                have hbody_tag : ∀ e ∈ Δm ++ (evs ++ Δz), e.mid = i := by
                  intro e he
                  rcases List.mem_append.mp he with hem | he2
                  · rcases List.mem_map.mp hem with ⟨f, _, rfl⟩
                    rfl
                  rcases List.mem_append.mp he2 with hea | hez
                  · exact (hevs e hea).1
                  · rcases List.mem_map.mp hez with ⟨x, _, rfl⟩
                    rfl
                have hnotin_Δr : ∀ x : Nat, nameOfM pool x ∈ st2.visited →
                    ∀ e ∈ Δr, e.mid ≠ x := by
                  intro x hx e he hmid
                  refine r3 (nameOfM pool x) ?_ (by rw [h52]; exact hx)
                  rw [← hmid]
                  exact List.mem_map_of_mem _ (r5 e he).1
                have hnotin_Δd : ∀ x : Nat, nameOfM pool x ∈ st.visited ++ [m.name] →
                    ∀ e ∈ Δd, e.mid ≠ x := by
                  intro x hx e he hmid
                  refine d3 (nameOfM pool x) ?_ hx
                  rw [← hmid]
                  exact List.mem_map_of_mem _ (d5 e he).1
                have hnotin_st : ∀ x : Nat, nameOfM pool x ∉ st.visited →
                    ∀ e ∈ st.trace, e.mid ≠ x := by
                  intro x hx e he hmid
                  exact hx (hmid ▸ (hh e he).1)
                have hno_i_Δd : ∀ e ∈ Δd, e.mid ≠ i :=
                  hnotin_Δd i (by rw [hname]; exact hm_in_stm)
                have hno_i_st : ∀ e ∈ st.trace, e.mid ≠ i :=
                  hnotin_st i (by rw [hname]; exact hvnm)
                have hno_i_Δr : ∀ e ∈ Δr, e.mid ≠ i :=
                  hnotin_Δr i (by
                    rw [hname, h2stm]
                    exact List.mem_append_left _ hm_in_stm)
                rw [hΔfull]
                rw [entersOf_cons_enter, entersOf_append, entersOf_append,
                  entersOf_append, entersOf_append, entersOf_merge_map,
                  entersOf_assert_map,
                  entersOf_of_no_enters evs (fun e2 he2 => (hevs e2 he2).2.1)]
                simp only [List.append_nil, List.nil_append]
                intro j hj
                rcases List.mem_cons.mp hj with rfl | hj2
                · -- j is the module being entered here
                  refine ⟨⟨j, List.mem_cons_self _ _, Nat.le_refl _⟩, ?_, ?_⟩
                  · intro d hd
                    rw [depsOfV, hmAt] at hd
                    obtain ⟨hnd2, hdv⟩ := d8 d hd
                    have hdne : d ≠ j := fun he => by
                      have := hrank j d (by rw [depsOfV, hmAt]; exact hd)
                      rw [he] at this
                      omega
                    refine ⟨?_, hdv, ?_⟩
                    · rw [r2, h52]
                      exact List.mem_append_left _ hnd2
                    · rw [htr1]
                      apply allBefore_parts
                      · intro e he hQ
                        rw [htr2] at he
                        rcases List.mem_append.mp he with he2 | hed
                        rcases List.mem_append.mp he2 with hes | hee
                        · exact hno_i_st e hes hQ.1
                        · rcases List.mem_singleton.mp hee with rfl
                          exact hQ.2 rfl
                        · exact hno_i_Δd e hed hQ.1
                      · intro e he hP
                        rcases List.mem_append.mp he with hem | he2
                        · rcases List.mem_map.mp hem with ⟨f, _, rfl⟩
                          exact hdne hP.symm
                        rcases List.mem_append.mp he2 with hea | he3
                        · rw [(hevs e hea).1] at hP
                          exact hdne hP.symm
                        rcases List.mem_append.mp he3 with hez | her
                        · rcases List.mem_map.mp hez with ⟨x, _, rfl⟩
                          exact hdne hP.symm
                        · exact hnotin_Δr d (by rw [h2stm] at hnd2 ⊢; exact hnd2) e her hP
                  · refine ⟨evs, ?_, ?_⟩
                    · have hf1 : List.filter (isBodyB j) st.trace = [] :=
                        List.filter_eq_nil_iff.mpr (fun e he => by
                          rw [isBodyB_false_of_ne (hno_i_st e he)]
                          exact Bool.false_ne_true)
                      have hf2 : List.filter (isBodyB j) [(⟨j, Phase.enter⟩ : Ev)] = [] := by
                        simp [isBodyB, phIsEnter]
                      have hf3 : List.filter (isBodyB j) Δd = [] :=
                        List.filter_eq_nil_iff.mpr (fun e he => by
                          rw [isBodyB_false_of_ne (hno_i_Δd e he)]
                          exact Bool.false_ne_true)
                      have hf4 : List.filter (isBodyB j) Δm = Δm :=
                        List.filter_eq_self.mpr (fun e he => by
                          rcases List.mem_map.mp he with ⟨f, _, rfl⟩
                          simp [isBodyB, phIsEnter])
                      have hf5 : List.filter (isBodyB j) evs = evs :=
                        List.filter_eq_self.mpr (fun e he => by
                          obtain ⟨hmid, hph1, _⟩ := hevs e he
                          simp [isBodyB, hmid, hph1])
                      have hf6 : List.filter (isBodyB j) Δz = Δz :=
                        List.filter_eq_self.mpr (fun e he => by
                          rcases List.mem_map.mp he with ⟨x, _, rfl⟩
                          simp [isBodyB, phIsEnter])
                      have hf7 : List.filter (isBodyB j) Δr = [] :=
                        List.filter_eq_nil_iff.mpr (fun e he => by
                          rw [isBodyB_false_of_ne (hno_i_Δr e he)]
                          exact Bool.false_ne_true)
                      rw [htr1, htr2]
                      simp only [List.filter_append, hf1, hf2, hf3, hf4, hf5, hf6, hf7]
                      rw [hmAt, hΔm, hΔz]
                      simp
                    · rw [hmAt]
                      exact a4
                · rcases List.mem_append.mp hj2 with hjd | hjr
                  · -- j entered inside the dependency subtree of i
                    obtain ⟨⟨d0, hd0, hled⟩, hdepj, hbodyj⟩ :=
                      ih _ m.deps st2 hdeps histm Δd htr2 j hjd
                    have hjlt : rank j < rank i :=
                      Nat.lt_of_le_of_lt hled (hrank i d0 (by rw [depsOfV, hmAt]; exact hd0))
                    have hjname2 : nameOfM pool j ∈ st2.visited := by
                      rw [h2stm]
                      exact List.mem_append_right _ (List.mem_map_of_mem _ hjd)
                    have hjne : j ≠ i := fun he => by rw [he] at hjlt; omega
                    refine ⟨⟨i, List.mem_cons_self _ _, Nat.le_of_lt hjlt⟩, ?_, ?_⟩
                    · intro d hd
                      obtain ⟨hnd2, hdv, hab⟩ := hdepj d hd
                      have hdlt : rank d < rank i :=
                        Nat.lt_trans (hrank j d hd) hjlt
                      have hdne : d ≠ i := fun he => by rw [he] at hdlt; omega
                      refine ⟨?_, hdv, ?_⟩
                      · rw [r2, h52]
                        exact List.mem_append_left _ hnd2
                      · rw [htr1]
                        apply allBefore_append_noP _ _ _ _ hab
                        intro e he hP
                        rcases List.mem_append.mp he with hem | he2
                        · rcases List.mem_map.mp hem with ⟨f, _, rfl⟩
                          exact hdne hP.symm
                        rcases List.mem_append.mp he2 with hea | he3
                        · rw [(hevs e hea).1] at hP
                          exact hdne hP.symm
                        rcases List.mem_append.mp he3 with hez | her
                        · rcases List.mem_map.mp hez with ⟨x, _, rfl⟩
                          exact hdne hP.symm
                        · exact hnotin_Δr d hnd2 e her hP
                    · obtain ⟨asEvs, hfil, hfa⟩ := hbodyj
                      refine ⟨asEvs, ?_, hfa⟩
                      have hg1 : List.filter (isBodyB j) (Δm ++ (evs ++ (Δz ++ Δr))) = [] :=
                        List.filter_eq_nil_iff.mpr (fun e he => by
                          rcases List.mem_append.mp he with hem | he2
                          · rcases List.mem_map.mp hem with ⟨f, _, rfl⟩
                            rw [isBodyB_false_of_ne (fun hmid => hjne hmid.symm)]
                            exact Bool.false_ne_true
                          · rcases List.mem_append.mp he2 with hea | he3
                            · rw [isBodyB_false_of_ne (fun hmid =>
                                hjne (((hevs e hea).1 ▸ hmid).symm))]
                              exact Bool.false_ne_true
                            · rcases List.mem_append.mp he3 with hez | her
                              · rcases List.mem_map.mp hez with ⟨x, _, rfl⟩
                                rw [isBodyB_false_of_ne (fun hmid => hjne hmid.symm)]
                                exact Bool.false_ne_true
                              · rw [isBodyB_false_of_ne (hnotin_Δr j hjname2 e her)]
                                exact Bool.false_ne_true)
                      rw [htr1, List.filter_append, hg1, List.append_nil]
                      exact hfil
                  · -- j entered while processing the rest of the worklist
                    obtain ⟨⟨i0, hi0, hle⟩, hdepj, hbodyj⟩ :=
                      ih st5 rest st1 h hist5 Δr r1 j hjr
                    exact ⟨⟨i0, List.mem_cons_of_mem _ hi0, hle⟩, hdepj, hbodyj⟩

/-- Claim C5, amended: the engine walks the module graph depth-first from
the root, visits each module at most once — memoized by module *name*
(two distinct module objects sharing a name are processed only once), not
by object identity — with, for every visited module, all its
dependencies' work strictly preceding the module's own body; the body is
performed in the order merges, then assignments, then assertions; and
every assertion was checked against exactly the engine state produced by
the events preceding it in the trace, so it observes the values set by
the module itself and its dependencies but nothing from modules visited
later.  The dependency-precedence part assumes the dependency graph is a
DAG, witnessed by a rank function (the source would misbehave on cycles,
see claim C6). -/
theorem c5_amended {σ : Type} (O : Oracle σ) (pool : List ModuleV) (σ0 : σ)
    (fuel root : Nat) (st1 : EngSt σ)
    (hrun : runConfig O pool σ0 fuel root = .ok st1) :
    (st1.visited.Nodup ∧ (entersOf st1.trace).map (nameOfM pool) = st1.visited) ∧
    (st1.kc = replay O σ0 st1.trace ∧ AssertsSeePrefix O σ0 st1.trace) ∧
    (∀ rank : Nat → Nat, (∀ a, ∀ b ∈ depsOfV pool a, rank b < rank a) →
      ∀ j ∈ entersOf st1.trace,
        (∀ d ∈ depsOfV pool j,
          nameOfM pool d ∈ st1.visited ∧ d < pool.length ∧
          allBefore st1.trace (fun e => e.mid = d)
            (fun e => e.mid = j ∧ e.ph ≠ Phase.enter)) ∧
        (∃ asEvs, st1.trace.filter (isBodyB j) =
          (moduleAtV pool j).merge_kconf_files.map (fun f => (⟨j, .mergeF f⟩ : Ev)) ++
            (asEvs ++
            (moduleAtV pool j).assertions.map (fun x => (⟨j, .assertOk x.1 x.2⟩ : Ev))) ∧
          List.Forall₂ (fun (ev : Ev) (x : String × String) =>
            ev.mid = j ∧
            (ev.ph = Phase.assignSet x.1 x.2 ∨ ev.ph = Phase.assignSkip x.1 x.2))
            asEvs (moduleAtV pool j).assignments)) := by
  obtain ⟨Δ, h1, h2, h3, h4, h5, h6, h7, h8⟩ :=
    visitD_spec O pool fuel ⟨σ0, [], [], [], []⟩ [root] st1 hrun
  have hΔ : Δ = st1.trace := by simpa using h1.symm
  subst hΔ
  refine ⟨⟨h4 List.nodup_nil, by simpa using h2.symm⟩, ⟨h6, h7⟩, ?_⟩
  intro rank hrank j hj
  have horder := visitD_order O pool rank hrank fuel ⟨σ0, [], [], [], []⟩ [root] st1 hrun
    (fun e he => absurd he (List.not_mem_nil e)) st1.trace (by simp) j hj
  exact ⟨horder.2.1, horder.2.2⟩

def c5okpool : List ModuleV :=
  [⟨"root", [1], ["file0"], [("R", "y")], [("A", "y")]⟩,
   ⟨"a", [2], [], [("A", "y")], []⟩,
   ⟨"b", [], [], [("B", "y")], []⟩]

theorem c5_amended_witness :
    runConfig KO c5okpool [] 12 0 = .ok (getOkE (runConfig KO c5okpool [] 12 0)) ∧
    ((getOkE (runConfig KO c5okpool [] 12 0)).visited.Nodup ∧
      (entersOf (getOkE (runConfig KO c5okpool [] 12 0)).trace).map (nameOfM c5okpool) =
        (getOkE (runConfig KO c5okpool [] 12 0)).visited) ∧
    ((getOkE (runConfig KO c5okpool [] 12 0)).kc =
        replay KO [] (getOkE (runConfig KO c5okpool [] 12 0)).trace ∧
      AssertsSeePrefix KO [] (getOkE (runConfig KO c5okpool [] 12 0)).trace) ∧
    (∀ rank : Nat → Nat, (∀ a, ∀ b ∈ depsOfV c5okpool a, rank b < rank a) →
      ∀ j ∈ entersOf (getOkE (runConfig KO c5okpool [] 12 0)).trace,
        (∀ d ∈ depsOfV c5okpool j,
          nameOfM c5okpool d ∈ (getOkE (runConfig KO c5okpool [] 12 0)).visited ∧
          d < c5okpool.length ∧
          allBefore (getOkE (runConfig KO c5okpool [] 12 0)).trace (fun e => e.mid = d)
            (fun e => e.mid = j ∧ e.ph ≠ Phase.enter)) ∧
        (∃ asEvs, (getOkE (runConfig KO c5okpool [] 12 0)).trace.filter (isBodyB j) =
          (moduleAtV c5okpool j).merge_kconf_files.map (fun f => (⟨j, .mergeF f⟩ : Ev)) ++
            (asEvs ++
            (moduleAtV c5okpool j).assertions.map (fun x => (⟨j, .assertOk x.1 x.2⟩ : Ev))) ∧
          List.Forall₂ (fun (ev : Ev) (x : String × String) =>
            ev.mid = j ∧
            (ev.ph = Phase.assignSet x.1 x.2 ∨ ev.ph = Phase.assignSkip x.1 x.2))
            asEvs (moduleAtV c5okpool j).assignments)) :=
  ⟨rfl, c5_amended KO c5okpool [] 12 0 (getOkE (runConfig KO c5okpool [] 12 0)) rfl⟩

theorem c8_reverse_deps_witness :
    revAt (create_reverse_deps st8).pool 2 =
      (st8.modules.filter (fun e => 2 ∈ depsAt st8.pool e.2)).map (fun e => e.2) ++
        (if 2 ∈ depsAt st8.pool 0 then [0] else []) ∧
    (∀ mod, (create_reverse_deps st8).pool[2]? = some mod →
      ¬(mod.assignments.length = 0 ∧ mod.assertions.length = 0) →
      (mod.rev_deps.map
          (fun d => "# required by " ++ nameOfB (create_reverse_deps st8).pool d ++ "\n")).IsPrefix
        (write_module (create_reverse_deps st8).pool mod)) :=
  c8_reverse_deps st8 2 (by decide) (by decide) (by decide) (by decide)

end Autokernel
